import Mathlib

/-!
Shallow embedding of the atopile/faebryk C++ graph core
(src/faebryk/core/cpp): the typed interface graph (graph.cpp,
graphinterface.cpp, links.cpp) and the path-finding engine (bfs.cpp,
pathfinder.cpp).  Interfaces ("gifs") are identified by natural numbers,
links by records or an inductive type, and the mutable C++ objects become
explicit state records.  Iteration order of C++ unordered containers is
unspecified; the model fixes the insertion order of the corresponding
association lists.  Performance counters (pathcounter.cpp, perf.cpp) only
record timing and counts and are omitted.
-/

namespace Atopile

/-! ### Generic helpers: function update and association lists -/

def upd {α : Type} (f : Nat → α) (i : Nat) (a : α) : Nat → α :=
  fun j => if j = i then a else f j

@[simp] theorem upd_same {α : Type} (f : Nat → α) (i : Nat) (a : α) :
    upd f i a i = a := by
  simp [upd]

theorem upd_ne {α : Type} (f : Nat → α) (i : Nat) (a : α) (j : Nat) (h : j ≠ i) :
    upd f i a j = f j := by
  simp [upd, h]

def alookup {κ β : Type} [DecidableEq κ] (m : List (κ × β)) (k : κ) : Option β :=
  match m with
  | [] => none
  | (k', v) :: rest => if k' = k then some v else alookup rest k

def aerase {κ β : Type} [DecidableEq κ] (m : List (κ × β)) (k : κ) :
    List (κ × β) :=
  m.filter (fun p => p.1 ≠ k)

def aset {κ β : Type} [DecidableEq κ] (m : List (κ × β)) (k : κ) (v : β) :
    List (κ × β) :=
  (k, v) :: aerase m k

def aupd {κ β : Type} [DecidableEq κ] (m : List (κ × β)) (k : κ) (d : β)
    (f : β → β) : List (κ × β) :=
  aset m k (f ((alookup m k).getD d))

def sinsert (l : List (Nat × Nat)) (x : Nat × Nat) : List (Nat × Nat) :=
  if x ∈ l then l else x :: l

theorem alookup_aerase_ne {κ β : Type} [DecidableEq κ]
    (m : List (κ × β)) (k k' : κ) (h : k' ≠ k) :
    alookup (aerase m k) k' = alookup m k' := by
  induction m with
  | nil => rfl
  | cons hd tl ih =>
    obtain ⟨a, b⟩ := hd
    by_cases hh : a = k
    · have hfilter : aerase ((a, b) :: tl) k = aerase tl k := by simp [aerase, hh]
      have hstep : alookup ((a, b) :: tl) k' = alookup tl k' := by
        have h1 : ¬ a = k' := by rw [hh]; exact Ne.symm h
        simp [alookup, h1]
      rw [hfilter, ih, hstep]
    · have hfilter : aerase ((a, b) :: tl) k = (a, b) :: aerase tl k := by
        simp [aerase, hh]
      rw [hfilter]
      by_cases hk : a = k'
      · simp [alookup, hk]
      · simp only [alookup, if_neg hk]
        exact ih

@[simp] theorem alookup_aset_same {κ β : Type} [DecidableEq κ]
    (m : List (κ × β)) (k : κ) (v : β) : alookup (aset m k v) k = some v := by
  simp [aset, alookup]

theorem alookup_aset_ne {κ β : Type} [DecidableEq κ]
    (m : List (κ × β)) (k k' : κ) (v : β) (h : k' ≠ k) :
    alookup (aset m k v) k' = alookup m k' := by
  simp only [aset, alookup, if_neg (Ne.symm h)]
  exact alookup_aerase_ne m k k' h

/-! ### Graph mutation model (graph.cpp, graphinterface.cpp)

A `GLink` stands for a heap-allocated `Link` object: `lid` is its identity
(the C++ pointer), `gfrom`/`gto`/`setup` the fields of the `Link` base
class and `cloneable` the result of `is_cloneable()` (which queries the
host environment in the source and is therefore carried as data).
`GraphM` is the `Graph` value: interface set `v`, edge list `e`, forward
link cache `eCache` and simple neighbour cache `eCacheSimple`.
`add_edge`/`remove_edge` act on a single graph; the cross-graph merge at
the top of the C++ `add_edge` is modelled separately by `merge_graphs`. -/

structure GLink where
  lid : Nat
  gfrom : Nat
  gto : Nat
  setup : Bool
  cloneable : Bool
deriving DecidableEq

structure GraphM where
  v : List Nat
  e : List (Nat × Nat × GLink)
  eCache : List ((Nat × Nat) × GLink)
  eCacheSimple : List (Nat × Nat)
  invalidated : Bool
deriving DecidableEq

inductive AddEdgeErr where
  | notSetup
  | linkExists (existing : Option GLink) (newLink : GLink)
deriving DecidableEq

def Graph.add_edge (g : GraphM) (link : GLink) : Except AddEdgeErr GraphM :=
  if link.setup = false then .error .notSetup
  else
    let f := link.gfrom
    let t := link.gto
    if (f, t) ∈ g.eCacheSimple then
      .error (.linkExists (alookup g.eCache (f, t)) link)
    else
      .ok { g with
        eCacheSimple := sinsert (sinsert g.eCacheSimple (f, t)) (t, f),
        eCache := aset (aset g.eCache (f, t) link) (t, f) link,
        e := g.e ++ [(f, t, link)] }

def Graph.remove_edge (g : GraphM) (link : GLink) : Except String GraphM :=
  if link.setup = false then .error "link not setup"
  else
    let f := link.gfrom
    let t := link.gto
    if (f, t) ∉ g.eCacheSimple then .ok g
    else if alookup g.eCache (f, t) ≠ some link then .error "link not in graph"
    else
      .ok { g with
        eCacheSimple := g.eCacheSimple.filter (fun x => x ≠ (f, t)),
        eCache := aerase (aerase g.eCache (f, t)) (t, f),
        e := g.e.filter (fun tr => tr.2.2 ≠ link) }

def Graph.node_count (g : GraphM) : Nat := g.v.length

def Graph.edge_count (g : GraphM) : Nat := g.e.length

def Graph.merge (g other : GraphM) : GraphM :=
  { v := g.v ++ other.v.filter (fun x => decide (x ∉ g.v)),
    e := g.e ++ other.e,
    eCache := g.eCache ++ other.eCache.filter (fun p => (alookup g.eCache p.1).isNone),
    eCacheSimple :=
      g.eCacheSimple ++ other.eCacheSimple.filter (fun x => decide (x ∉ g.eCacheSimple)),
    invalidated := g.invalidated }

def Graph.merge_graphs (g1 g2 : GraphM) : GraphM :=
  if Graph.node_count g2 ≤ Graph.node_count g1 then Graph.merge g1 g2
  else Graph.merge g2 g1

inductive ConnectErr where
  | alreadySetup
  | notCloneable
  | addErr (e : AddEdgeErr)
deriving DecidableEq

def GraphInterface.connect_link (g : GraphM) (self other : Nat) (link : GLink) :
    Except ConnectErr GraphM :=
  if link.setup then .error .alreadySetup
  else
    match Graph.add_edge g { link with gfrom := self, gto := other, setup := true } with
    | .ok g' => .ok g'
    | .error e => .error (.addErr e)

def GraphInterface.connect (g : GraphM) (self other : Nat) (fresh : Nat) :
    Except AddEdgeErr GraphM :=
  Graph.add_edge g { lid := fresh, gfrom := self, gto := other, setup := true,
                     cloneable := true }

def Link.clone (l : GLink) (fresh : Nat) : GLink :=
  { lid := fresh, gfrom := 0, gto := 0, setup := false, cloneable := l.cloneable }

def connect_many_go (g : GraphM) (self : Nat) (others : List Nat) (link : GLink)
    (fresh : Nat) : Except ConnectErr GraphM :=
  match others with
  | [] => .ok g
  | o :: rest =>
    match GraphInterface.connect_link g self o (Link.clone link fresh) with
    | .error e => .error e
    | .ok g' => connect_many_go g' self rest link (fresh + 1)

def GraphInterface.connect_many (g : GraphM) (self : Nat) (others : List Nat)
    (link : GLink) (fresh : Nat) : Except ConnectErr GraphM :=
  if others.length = 1 then GraphInterface.connect_link g self (others.headD 0) link
  else if link.cloneable = false then .error .notCloneable
  else connect_many_go g self others link fresh

inductive GOp where
  | connect (self other fresh : Nat)
  | connectLink (self other : Nat) (l : GLink)
  | removeEdge (l : GLink)

def applyGOp (g : GraphM) (op : GOp) : GraphM :=
  match op with
  | .connect s o f =>
    match GraphInterface.connect g s o f with
    | .ok g' => g'
    | .error _ => g
  | .connectLink s o l =>
    match GraphInterface.connect_link g s o l with
    | .ok g' => g'
    | .error _ => g
  | .removeEdge l =>
    match Graph.remove_edge g l with
    | .ok g' => g'
    | .error _ => g

def emptyGraph : GraphM :=
  { v := [], e := [], eCache := [], eCacheSimple := [], invalidated := false }

def applyGOps (g : GraphM) (ops : List GOp) : GraphM := ops.foldl applyGOp g

def ReachableGraph (g : GraphM) : Prop := ∃ ops, g = applyGOps emptyGraph ops

/-! ### Types, link variants and the static world (type.cpp, links.cpp)

`NType` models `Node::Type`: the type handle id `tid` plus the `_mro_ids`
supertype set; the constructor inserts the type's own id, so
`is_subclass` checks `tid` as well.  `Link` is the link class hierarchy as
a sum; `directConditional`/`directDerived` carry the filter closure and
the `needs_only_first_in_path` flag.  A `World` is the immutable graph
surrounding a path search: gif kinds, owning nodes, node types, the
simple adjacency (`get_gif_edges`), the link map (`get_edges`), `v_i`
indices and the per-node gif triad accessors. -/

structure NType where
  tid : Nat
  mro : List Nat
deriving DecidableEq

def NType.is_subclass (t : NType) (x : Nat) : Bool :=
  t.tid == x || t.mro.contains x

def NType.is_subclass_any (t : NType) (types : List Nat) : Bool :=
  types.any t.is_subclass

inductive FilterResult where
  | pass
  | failRecoverable
  | failUnrecoverable
deriving DecidableEq

inductive Link where
  | direct
  | parentLink
  | namedParent (name : String)
  | pointer
  | sibling
  | directConditional (filterF : List Nat → FilterResult) (onlyFirst : Bool)
  | directDerived (filterF : List Nat → FilterResult) (onlyFirst : Bool)

inductive GifKind where
  | self
  | hierarchical (isParent : Bool)
  | reference
  | moduleConnection
  | other
deriving DecidableEq

structure World where
  mifTid : Nat
  kind : Nat → GifKind
  nodeOf : Nat → Nat
  typeOf : Nat → NType
  adj : Nat → List Nat
  edges : Nat → List (Nat × Link)
  vIndex : Nat → Nat
  nodeCount : Nat
  selfGifOf : Nat → Nat
  childrenGifOf : Nat → Nat
  parentGifOf : Nat → Nat

def World.getLink (w : World) (a b : Nat) : Option Link :=
  alookup (w.edges a) b

def World.is_moduleinterface (w : World) (t : NType) : Bool :=
  t.is_subclass w.mifTid

/-- Cast test `dynamic_pointer_cast<LinkDirect>`: succeeds for `LinkDirect`
and its subclasses `LinkDirectConditional` and `LinkDirectDerived`. -/
def Link.isDirectCast : Link → Bool
  | .direct => true
  | .directConditional _ _ => true
  | .directDerived _ _ => true
  | _ => false

/-- Cast test `dynamic_pointer_cast<LinkParent>`: succeeds for `LinkParent`
and its subclass `LinkNamedParent`. -/
def Link.isParentCast : Link → Bool
  | .parentLink => true
  | .namedParent _ => true
  | _ => false

def Link.onlyFirstOf : Link → Option Bool
  | .directConditional _ o => some o
  | .directDerived _ o => some o
  | _ => none

def Node.isinstance (w : World) (n : Nat) (types : List Nat) : Bool :=
  (w.typeOf n).is_subclass_any types

/-- `GraphInterface::get_connected_nodes`: collect the owning node of every
neighbour whose link casts to `LinkDirect` and whose node type is a
subclass of one of the requested types (the result is a set). -/
def GraphInterface.get_connected_nodes (w : World) (gif : Nat) (types : List Nat) :
    List Nat :=
  ((w.edges gif).filterMap (fun e =>
    if e.2.isDirectCast then
      if Node.isinstance w (w.nodeOf e.1) types then some (w.nodeOf e.1) else none
    else none)).dedup

/-- Comparison definition following the spec sentence word for word: only a
neighbour "whose link is a plain `Direct`" (no other variant) contributes
its owning node. -/
def spec_connected_nodes_plain_direct (w : World) (gif : Nat) (types : List Nat) :
    List Nat :=
  ((w.edges gif).filterMap (fun e =>
    match e.2 with
    | .direct =>
      if Node.isinstance w (w.nodeOf e.1) types then some (w.nodeOf e.1) else none
    | _ => none)).dedup

def pathEdges (p : List Nat) : List (Nat × Nat) := p.zip p.tail

def lastGif (p : List Nat) : Nat := p.getLastD 0

/-- `LinkDirectConditional::LinkDirectConditional`: both constructors raise
a runtime error when `needs_only_first_in_path` is false. -/
def LinkDirectConditional.mk_checked (filterF : List Nat → FilterResult)
    (needsOnlyFirst : Bool) : Except String Link :=
  if needsOnlyFirst = false then
    .error "No support for path conditions with implied links on"
  else
    .ok (.directConditional filterF needsOnlyFirst)

/-- `LinkDirectDerived::make_filter_from_path`: collect the filters of all
conditional links along the witness path; the conjunction filter passes
when every component passes, and the `needs_only_first_in_path` flag is
the conjunction of the component flags (initially true). -/
def LinkDirectDerived.make_filter_from_path (w : World) (p : List Nat) :
    (List Nat → FilterResult) × Bool :=
  let conds := (pathEdges p).filterMap (fun e =>
    match w.getLink e.1 e.2 with
    | some (.directConditional f o) => some (f, o)
    | some (.directDerived f o) => some (f, o)
    | _ => none)
  (fun checkPath =>
      let results := conds.map (fun c => c.1 checkPath)
      let ok := results.all (fun r => r == FilterResult.pass)
      let recoverable := results.all (fun r => r != FilterResult.failUnrecoverable)
      if ok then .pass
      else if recoverable then .failRecoverable
      else .failUnrecoverable,
   conds.all (fun c => c.2))

/-- `LinkDirectDerived::LinkDirectDerived` delegates to the
`LinkDirectConditional` constructor, hence inherits its rejection of
`needs_only_first_in_path = false`. -/
def LinkDirectDerived.mk_checked (w : World) (p : List Nat) : Except String Link :=
  match LinkDirectConditional.mk_checked
      (LinkDirectDerived.make_filter_from_path w p).1
      (LinkDirectDerived.make_filter_from_path w p).2 with
  | .error e => .error e
  | .ok _ =>
    .ok (.directDerived (LinkDirectDerived.make_filter_from_path w p).1
      (LinkDirectDerived.make_filter_from_path w p).2)

/-! ### BFS paths and path-finder state (bfs.hpp, bfs.cpp, pathfinder.hpp)

A C++ stack vector's `back` is the head of the Lean list (so `push_back`
is cons, `front` is the last list element, and `reverse_view` iteration is
plain list order).  `BFSPath::path_data` is shared with copy-on-write in
the source; a mutation either copies first or is the unique owner, so the
observable behaviour is value semantics and `PathData` is embedded as a
plain field copied on path extension.  Path ids index a total store
function; `nextId` is the next unused id. -/

structure PathLimits where
  absolute : Nat
  noNewWeak : Nat
  noWeak : Nat

structure PathStackElement where
  parentType : Nat
  childType : Nat
  parentGif : Nat
  childGif : Nat
  name : String
  up : Bool
deriving DecidableEq

instance : Inhabited PathStackElement :=
  ⟨{ parentType := 0, childType := 0, parentGif := 0, childGif := 0,
     name := "", up := false }⟩

structure UnresolvedStackElement where
  elem : PathStackElement
  split : Bool
deriving DecidableEq

structure PathData where
  unresolvedStack : List UnresolvedStackElement
  splitStack : List PathStackElement
  notComplete : Bool
deriving DecidableEq

structure BFSPath where
  path : List Nat
  data : PathData
  confidence : ℚ
  filtered : Bool
  hibernated : Bool
  stop : Bool
  wakeSignal : Bool
  strongSignal : Bool

instance : Inhabited BFSPath :=
  ⟨{ path := [], data := ⟨[], [], false⟩, confidence := 1, filtered := false,
     hibernated := false, stop := false, wakeSignal := false,
     strongSignal := false }⟩

/-- `BFSPath::BFSPath(other, new_head)`: append the new head, share (copy)
the path data, keep `confidence`, `filtered` and `stop`; the signal flags
and `hibernated` take their default values. -/
def BFSPath.extend (p : BFSPath) (g : Nat) : BFSPath :=
  { path := p.path ++ [g], data := p.data, confidence := p.confidence,
    filtered := p.filtered, hibernated := false, stop := p.stop,
    wakeSignal := false, strongSignal := false }

structure SplitState where
  splitPre : List Nat
  complete : Bool
  waiting : Bool
  suffixCompletePaths : List (Nat × List Nat)
  waitPaths : List (Nat × List Nat)

structure SearchState where
  store : Nat → BFSPath
  nextId : Nat
  queue : List Nat
  hib : List Nat
  visited : Nat → Bool
  visitedWeak : Nat → Bool
  splitMap : List (Nat × List (List Nat × SplitState))
  pathCnt : Nat
  validPaths : List Nat
  dsts : List Nat

instance : Inhabited SearchState :=
  ⟨{ store := fun _ => default, nextId := 0, queue := [], hib := [],
     visited := fun _ => false, visitedWeak := fun _ => false, splitMap := [],
     pathCnt := 0, validPaths := [], dsts := [] }⟩

def updStore (s : SearchState) (i : Nat) (p : BFSPath) : SearchState :=
  { s with store := upd s.store i p }

/-! ### Hierarchy classification and the fold stack (pathfinder.cpp) -/

def GraphInterfaceHierarchical.is_uplink (w : World) (a b : Nat) : Bool :=
  match w.kind a, w.kind b with
  | .hierarchical pa, .hierarchical pb => !pa && pb
  | _, _ => false

def GraphInterfaceHierarchical.is_downlink (w : World) (a b : Nat) : Bool :=
  match w.kind a, w.kind b with
  | .hierarchical pa, .hierarchical pb => pa && !pb
  | _, _ => false

/-- `GraphInterfaceHierarchical::get_parent`: the first `LinkParent`-castable
link of the gif gives the parent node; the name comes from a
`LinkNamedParent`, otherwise it is empty. -/
def gif_get_parent (w : World) (g : Nat) : Option (Nat × String) :=
  match (w.edges g).find? (fun e => e.2.isParentCast) with
  | some (t, Link.namedParent n) => some (w.nodeOf t, n)
  | some (t, _) => some (w.nodeOf t, "")
  | none => none

/-- `_extend_path_hierarchy_stack`: classify the edge as hierarchical
up/down; the source dereferences `child_gif->get_parent()` without a
check, an absent parent link is read as the empty name here.
`Node::Type` values compare by handle identity, represented by `tid`. -/
def extend_path_hierarchy_stack (w : World) (efrom eto : Nat) :
    Option PathStackElement :=
  let up := GraphInterfaceHierarchical.is_uplink w efrom eto
  if !up && !GraphInterfaceHierarchical.is_downlink w efrom eto then none
  else
    let childGif := if up then efrom else eto
    let parentGif := if up then eto else efrom
    let name :=
      match gif_get_parent w childGif with
      | some pr => pr.2
      | none => ""
    some { parentType := (w.typeOf (w.nodeOf parentGif)).tid,
           childType := (w.typeOf (w.nodeOf childGif)).tid,
           parentGif := parentGif, childGif := childGif, name := name, up := up }

def UnresolvedStackElement.match_elem (u : UnresolvedStackElement)
    (other : PathStackElement) : Bool :=
  u.elem.parentType == other.parentType && u.elem.childType == other.childType &&
  u.elem.name == other.name && u.elem.up != other.up

/-- `get_split_children`: the direct children of the split point's node
(via `LinkParent`-castable links of the node's children gif, a set),
filtered to module-interface types, mapped to their parent gifs.  The
source additionally sorts the children by name, which only permutes the
iteration order of the per-child maps. -/
def get_split_children (w : World) (splitPoint : Nat) : List Nat :=
  let node := w.nodeOf splitPoint
  let direct := ((w.edges (w.childrenGifOf node)).filterMap (fun e =>
    if e.2.isParentCast then some (w.nodeOf e.1) else none)).dedup
  (direct.filter (fun c => (w.typeOf c).is_subclass w.mifTid)).map
    (fun c => w.parentGifOf c)

def fold_stack_push (w : World) (elem : PathStackElement)
    (unresolved : List UnresolvedStackElement)
    (splitStack : List PathStackElement) :
    List UnresolvedStackElement × List PathStackElement :=
  let multiChild := 1 < (get_split_children w elem.parentGif).length
  let inSameSplit := splitStack.any (fun e =>
    e.parentType == elem.parentType && e.name == elem.name)
  let isSplit := !elem.up && multiChild && !inSameSplit
  (⟨elem, isSplit⟩ :: unresolved, if isSplit then elem :: splitStack else splitStack)

/-- `_extend_fold_stack`: pop a matching top of the unresolved stack, or
push the element, marking it a split when it is a downward step into a
multi-child parent not already covered by the split stack. -/
def extend_fold_stack (w : World) (elem : PathStackElement)
    (unresolved : List UnresolvedStackElement)
    (splitStack : List PathStackElement) :
    List UnresolvedStackElement × List PathStackElement :=
  match unresolved with
  | top :: rest =>
    if top.match_elem elem then (rest, splitStack)
    else fold_stack_push w elem unresolved splitStack
  | [] => fold_stack_push w elem unresolved splitStack

/-! ### Pure path filters (pathfinder.cpp) -/

def last_edge (p : List Nat) : Option (Nat × Nat) :=
  if p.length < 2 then none
  else some (p.getD (p.length - 2) 0, lastGif p)

def last_tri_edge (p : List Nat) : Option (Nat × Nat × Nat) :=
  if p.length < 3 then none
  else some (p.getD (p.length - 3) 0, p.getD (p.length - 2) 0, lastGif p)

def filter_path_by_node_type (w : World) (p : List Nat) : Bool :=
  (w.typeOf (w.nodeOf (lastGif p))).is_subclass w.mifTid

def filter_path_gif_type (w : World) (p : List Nat) : Bool :=
  match w.kind (lastGif p) with
  | .self => true
  | .hierarchical _ => true
  | .moduleConnection => true
  | _ => false

def filter_path_by_end_in_self_gif (w : World) (p : List Nat) : Bool :=
  match w.kind (lastGif p) with
  | .self => true
  | _ => false

def filter_path_same_end_type (w : World) (p : List Nat) : Bool :=
  (w.typeOf (w.nodeOf (lastGif p))).tid == (w.typeOf (w.nodeOf (p.headD 0))).tid

/-- `_filter_path_by_dead_end_split`: reject when the last three gifs are
all hierarchical and form child, parent, child. -/
def filter_path_by_dead_end_split (w : World) (p : List Nat) : Bool :=
  match last_tri_edge p with
  | none => true
  | some (a, b, c) =>
    match w.kind a, w.kind b, w.kind c with
    | .hierarchical pa, .hierarchical pb, .hierarchical pc =>
      !(!pa && pb && !pc)
    | _, _, _ => true

/-- One edge of `_filter_conditional_link`: conditional links are skipped
when `needs_to_check_only_first_in_path` holds and the edge does not end
at the path's last gif; otherwise the filter must pass on the current
path. -/
def condEdgeOk (w : World) (p : List Nat) (e : Nat × Nat) : Bool :=
  match w.getLink e.1 e.2 with
  | some (.directConditional f onlyFirst) =>
    if onlyFirst && !(e.2 == lastGif p) then true else f p == FilterResult.pass
  | some (.directDerived f onlyFirst) =>
    if onlyFirst && !(e.2 == lastGif p) then true else f p == FilterResult.pass
  | _ => true

/-- `_filter_conditional_link`: trivially true without a last edge,
otherwise every edge of the path must be skipped or pass (the C++ loop
short-circuits at the first failure, which yields the same value). -/
def filter_conditional_link (w : World) (p : List Nat) : Bool :=
  match last_edge p with
  | none => true
  | some _ => (pathEdges p).all (condEdgeOk w p)

/-! ### Stateful filters (pathfinder.cpp) -/

/-- `_count`: increment `path_cnt` and request a stop past the absolute
limit; always passes. -/
def count_filter (lim : PathLimits) (s : SearchState) (id : Nat) : SearchState :=
  let s1 := { s with pathCnt := s.pathCnt + 1 }
  if lim.absolute < s1.pathCnt then
    updStore s1 id { s1.store id with stop := true }
  else s1

def markFiltered (s : SearchState) (id : Nat) : SearchState :=
  updStore s id { s.store id with filtered := true }

/-- `SplitState::SplitState`: the prefix is the path without its last gif;
per split child, empty bags of complete-suffix paths and waiting paths. -/
def SplitState.ofPath (w : World) (p : BFSPath) : SplitState :=
  let pre := p.path.dropLast
  let children := get_split_children w (lastGif pre)
  { splitPre := pre, complete := false, waiting := false,
    suffixCompletePaths := children.map (fun c => (c, [])),
    waitPaths := children.map (fun c => (c, [])) }

/-- Split bookkeeping at the end of `_build_path_stack_and_handle_splits`
(from `data.not_complete = true` on): a known split state hibernates the
path into the child's wait list unless the split is already being awaited;
a completed split state rejects; an unknown prefix creates a new split
state. -/
def handle_new_split (w : World) (s : SearchState) (id : Nat)
    (elem : PathStackElement) : SearchState × Bool :=
  let p := s.store id
  let p1 := { p with data := { p.data with notComplete := true } }
  let s1 := updStore s id p1
  let splitPoint := elem.parentGif
  let pre := p1.path.dropLast
  let entries := (alookup s1.splitMap splitPoint).getD []
  match alookup entries pre with
  | some st =>
    if st.complete then (s1, false)
    else if st.waiting then (s1, true)
    else
      let s2 := updStore s1 id { p1 with hibernated := true }
      let st1 := { st with
        waitPaths := aupd st.waitPaths elem.childGif [] (fun l => l ++ [id]) }
      ({ s2 with splitMap := aset s2.splitMap splitPoint (aset entries pre st1) },
       true)
  | none =>
    let sm := aset s1.splitMap splitPoint (aset entries pre (SplitState.ofPath w p1))
    ({ s1 with splitMap := sm }, true)

/-- `_build_path_stack_and_handle_splits`: fold the last hierarchical edge
into the unresolved/split stks, damp the confidence by `0.5 ^ growth`,
apply the weak-path limits, and on new splits run the split bookkeeping. -/
def build_path_stack_and_handle_splits (w : World) (lim : PathLimits)
    (s : SearchState) (id : Nat) : SearchState × Bool :=
  let p := s.store id
  match last_edge p.path with
  | none => (s, true)
  | some e =>
    match extend_path_hierarchy_stack w e.1 e.2 with
    | none => (s, true)
    | some elem =>
      let splitCnt := p.data.splitStack.length
      if 0 < splitCnt ∧ lim.noWeak < s.pathCnt then (s, false)
      else
          let stks := extend_fold_stack w elem p.data.unresolvedStack p.data.splitStack
        let growth : ℤ := (stks.2.length : ℤ) - (splitCnt : ℤ)
        let d1 := { p.data with unresolvedStack := stks.1, splitStack := stks.2 }
        let p1 := { p with data := d1, confidence := p.confidence * (1 / 2 : ℚ) ^ growth }
        let s1 := updStore s id p1
        if 0 < growth ∧ lim.noNewWeak < s.pathCnt then (s1, false)
        else if growth = 0 then (s1, true)
        else handle_new_split w s1 id elem

/-- Inner scan of `_handle_valid_split_branch`'s completeness check: the
first child of the split with no recorded path ending at the current
path's last gif (an empty bag counts as incomplete). -/
def find_incomplete_child (store : Nat → BFSPath) (pLast : Nat) :
    List (Nat × List Nat) → Option Nat
  | [] => none
  | (child, pids) :: rest =>
    if pids.any (fun pid => lastGif (store pid).path == pLast) then
      find_incomplete_child store pLast rest
    else some child

/-- Completion of a split: every waiting path is marked filtered. -/
def mark_wait_filtered (s : SearchState) (wp : List (Nat × List Nat)) :
    SearchState :=
  wp.foldl (fun s cw =>
    cw.2.foldl (fun s wid =>
      updStore s wid { s.store wid with filtered := true }) s) s

/-- Loop over the split states at one split point inside
`_handle_valid_split_branch`: record the current path as a complete
suffix, then either wake or await an incomplete child branch (early
return, third component true) or mark the split complete and drop its
waiting paths (inner `break`). -/
def branch_inner (id : Nat) (childGif : Nat) (s : SearchState) :
    List (List Nat × SplitState) →
    List (List Nat × SplitState) × SearchState × Bool
  | [] => ([], s, false)
  | (pre, st) :: rest =>
    let p := s.store id
    if !(pre.isPrefixOf p.path) then
      let r := branch_inner id childGif s rest
      ((pre, st) :: r.1, r.2.1, r.2.2)
    else
      let st1 := { st with
        suffixCompletePaths :=
          aupd st.suffixCompletePaths childGif [] (fun l => l ++ [id]) }
      if st1.complete then
        let r := branch_inner id childGif s rest
        ((pre, st1) :: r.1, r.2.1, r.2.2)
      else
        match find_incomplete_child s.store (lastGif p.path)
            st1.suffixCompletePaths with
        | some child =>
          let wps := (alookup st1.waitPaths child).getD []
          if wps.isEmpty then
            ((pre, { st1 with waiting := true }) :: rest, s, true)
          else
            let back := wps.getLastD 0
            let s1 := updStore s back { s.store back with hibernated := false }
            let st2 := { st1 with waitPaths := aset st1.waitPaths child wps.dropLast }
            let s2 := updStore s1 id { s1.store id with wakeSignal := true }
            ((pre, st2) :: rest, s2, true)
        | none =>
          let st2 := { st1 with complete := true }
          let s1 := mark_wait_filtered s st2.waitPaths
          let st3 := { st2 with waitPaths := st2.waitPaths.map (fun cw => (cw.1, [])) }
          ((pre, st3) :: rest, s1, false)

/-- Outer loop of `_handle_valid_split_branch` over the split stack in
reverse order (list order here). -/
def branch_outer (id : Nat) :
    SearchState → List PathStackElement → SearchState × Bool
  | s, [] => (s, false)
  | s, elem :: restElems =>
    let splitPoint := elem.parentGif
    let entries := (alookup s.splitMap splitPoint).getD []
    let r := branch_inner id elem.childGif s entries
    let s1 := { r.2.1 with splitMap := aset r.2.1.splitMap splitPoint r.1 }
    if r.2.2 then (s1, true)
    else branch_outer id s1 restElems

/-- Strengthening block at the end of `_handle_valid_split_branch`: all
suffix-complete paths of the root split whose prefix matches the current
path become strong (`not_complete` false, woken, split stack cleared,
confidence 1) and the current path signals the wake. -/
def mark_strong (s : SearchState) (id : Nat)
    (entries : List (List Nat × SplitState)) : SearchState :=
  entries.foldl (fun s prst =>
    if prst.1.isPrefixOf (s.store id).path then
      prst.2.suffixCompletePaths.foldl (fun s cps =>
        cps.2.foldl (fun s pid =>
          let d1 := { (s.store pid).data with notComplete := false, splitStack := [] }
          let q1 := { s.store pid with data := d1, hibernated := false, confidence := 1 }
          let s1 := updStore s pid q1
          updStore s1 id { s1.store id with wakeSignal := true }) s) s
    else s) s

/-- `_handle_valid_split_branch`: nothing to do without splits; otherwise
walk the split stack, and when no early return happened strengthen the
paths of the root split.  The filter always reports success. -/
def handle_valid_split_branch (_w : World) (s : SearchState) (id : Nat) :
    SearchState × Bool :=
  let splitStack := (s.store id).data.splitStack
  if splitStack.isEmpty then (s, true)
  else
    let r := branch_outer id s splitStack
    if r.2 then (r.1, true)
    else
      let rootPoint := (splitStack.getLastD default).parentGif
      let entries := (alookup r.1.splitMap rootPoint).getD []
      (mark_strong r.1 id entries, true)

/-! ### The filter pipeline and BFS driver (pathfinder.cpp, bfs.cpp) -/

/-- Validity tail of `PathFinder::run_filters` (filters seven to ten):
failures reject the path without marking it filtered. -/
def run_filters_validity (w : World) (s : SearchState) (id : Nat) :
    SearchState × Bool :=
  if !filter_path_by_end_in_self_gif w (s.store id).path then (s, false)
  else if !filter_path_same_end_type w (s.store id).path then (s, false)
  else if !(s.store id).data.unresolvedStack.isEmpty then (s, false)
  else handle_valid_split_branch w s id

/-- Discovery filters two to six of `PathFinder::run_filters`: a failure
marks the path filtered and rejects it. -/
def run_filters_discovery (w : World) (lim : PathLimits) (s : SearchState)
    (id : Nat) : SearchState × Bool :=
  if !filter_path_by_node_type w (s.store id).path then (markFiltered s id, false)
  else if !filter_path_gif_type w (s.store id).path then (markFiltered s id, false)
  else if !filter_path_by_dead_end_split w (s.store id).path then
    (markFiltered s id, false)
  else if !filter_conditional_link w (s.store id).path then
    (markFiltered s id, false)
  else
    let r := build_path_stack_and_handle_splits w lim s id
    if !r.2 then (markFiltered r.1 id, false)
    else run_filters_validity w r.1 id

/-- `PathFinder::run_filters`: the fixed pipeline, in order, starting with
the hidden count filter. -/
def run_filters (w : World) (lim : PathLimits) (s : SearchState) (id : Nat) :
    SearchState × Bool :=
  run_filters_discovery w lim (count_filter lim s id) id

/-- Destination bookkeeping of the `find_paths` visitor for a recorded,
complete path: erase a reached destination and stop once none remain. -/
def pf_visitor_push (w : World) (s : SearchState) (id : Nat) : SearchState :=
  if (s.store id).data.notComplete then s
  else
    let lastNode := w.nodeOf (lastGif (s.store id).path)
    if lastNode ∈ s.dsts then
      let rest := s.dsts.filter (fun d => d ≠ lastNode)
      let s1 := { s with dsts := rest }
      if rest.isEmpty then updStore s1 id { s1.store id with stop := true }
      else s1
    else s

/-- The visitor body of `PathFinder::find_paths`: run the pipeline, record
valid paths, and on a complete path to a remaining destination erase it,
stopping the search once all destinations are found. -/
def pf_visitor (w : World) (lim : PathLimits) (s : SearchState) (id : Nat) :
    SearchState :=
  if !(run_filters w lim s id).2 then (run_filters w lim s id).1
  else
    pf_visitor_push w
      { (run_filters w lim s id).1 with
        validPaths := (run_filters w lim s id).1.validPaths ++ [id] } id

/-- Wake scan of `bfs_visit`'s `handle_path`: drop filtered hibernated
paths, requeue the no-longer-hibernated ones. -/
def process_wake (s : SearchState) : SearchState :=
  let moved := s.hib.filter (fun i =>
    !(s.store i).filtered && !(s.store i).hibernated)
  let kept := s.hib.filter (fun i =>
    !(s.store i).filtered && (s.store i).hibernated)
  { s with hib := kept, queue := s.queue ++ moved }

/-- Weak-bitset marking of `handle_path` for a surviving path. -/
def handle_path_markweak (w : World) (s : SearchState) (id : Nat) : SearchState :=
  { s with
    visitedWeak := upd s.visitedWeak (w.vIndex (lastGif (s.store id).path)) true }

/-- Strong-bitset marking of `handle_path`: on a strong signal mark every
gif of the path, else mark the last gif when the path is strong
(`confidence == 1.0`). -/
def handle_path_mark2 (w : World) (s : SearchState) (id : Nat) : SearchState :=
  if (s.store id).strongSignal then
    (s.store id).path.foldl (fun t g =>
      { t with visited := upd t.visited (w.vIndex g) true }) s
  else if (s.store id).confidence == 1 then
    { s with
      visited := upd s.visited (w.vIndex (lastGif (s.store id).path)) true }
  else s

/-- Queue insertion of `handle_path`: hibernated paths go to the
hibernation queue, the rest to the open queue. -/
def handle_path_insert (s : SearchState) (id : Nat) : SearchState :=
  if (s.store id).hibernated then { s with hib := s.hib ++ [id] }
  else { s with queue := s.queue ++ [id] }

/-- Weak/strong bitset marking and queue insertion of `handle_path` for a
surviving path. -/
def handle_path_enqueue (w : World) (s : SearchState) (id : Nat) : SearchState :=
  handle_path_insert (handle_path_mark2 w (handle_path_markweak w s id) id) id

/-- Tail of `handle_path` after the wake scan: drop filtered paths,
insert the rest. -/
def handle_path_post2 (w : World) (s : SearchState) (id : Nat) : SearchState :=
  if (s.store id).filtered then s
  else handle_path_enqueue w s id

/-- `handle_path` of `bfs_visit` after the visitor returned: a stop clears
the queue; a wake signal triggers the wake scan; then filtered paths are
dropped and the rest enqueued.  The BFSPath object does not change after
the visitor, so rereading it at each stage matches the C++ snapshot. -/
def handle_path_post (w : World) (s : SearchState) (id : Nat) : SearchState :=
  if (s.store id).stop then { s with queue := [] }
  else
    handle_path_post2 w
      (if (s.store id).wakeSignal then process_wake s else s) id

/-- `handle_path` of `bfs_visit`: the visitor followed by the queue
bookkeeping. -/
def handle_path (w : World) (lim : PathLimits) (s : SearchState) (id : Nat) :
    SearchState :=
  handle_path_post w (pf_visitor w lim s id) id

/-- The state after storing the extension of path `pid` by gif `n` under
the fresh id `s.nextId`. -/
def extendState (pid : Nat) (s : SearchState) (n : Nat) : SearchState :=
  { s with store := upd s.store s.nextId ((s.store pid).extend n),
           nextId := s.nextId + 1 }

/-- Extension step of the neighbour loop of `bfs_visit`: store the
extended path under the fresh id and handle it. -/
def visit_extend (w : World) (lim : PathLimits) (pid : Nat) (s : SearchState)
    (n : Nat) : SearchState :=
  handle_path w lim (extendState pid s n) s.nextId

/-- Body of the neighbour loop of `bfs_visit`: skip visited neighbours,
skip weak-visited neighbours already on the path, otherwise extend the
path into a fresh id and handle it. -/
def visit_neighbor (w : World) (lim : PathLimits) (pid : Nat) (s : SearchState)
    (n : Nat) : SearchState :=
  if s.visited (w.vIndex n) then s
  else if s.visitedWeak (w.vIndex n) && (s.store pid).path.contains n then s
  else visit_extend w lim pid s n

/-- Neighbour scan of one dequeued path. -/
def bfs_step (w : World) (lim : PathLimits) (pid : Nat) (s : SearchState) :
    SearchState :=
  (w.adj (lastGif (s.store pid).path)).foldl (visit_neighbor w lim pid) s

/-- Main loop of `bfs_visit`, fuelled: pop the head of the open queue and
visit the neighbours of its last gif. -/
def bfs_loop (w : World) (lim : PathLimits) : Nat → SearchState → SearchState
  | 0, s => s
  | Nat.succ fuel, s =>
    match s.queue with
    | [] => s
    | pid :: rest =>
      bfs_loop w lim fuel (bfs_step w lim pid { s with queue := rest })

def SearchState.init (root : Nat) (dsts : List Nat) : SearchState :=
  { store := upd (fun _ => default) 0 { (default : BFSPath) with path := [root] },
    nextId := 1, queue := [], hib := [],
    visited := fun _ => false, visitedWeak := fun _ => false,
    splitMap := [], pathCnt := 0, validPaths := [], dsts := dsts }

/-- `PathFinder::find_paths` up to the final pass: validate the endpoint
types, seed the BFS with the source's self gif, and run the loop. -/
def find_paths_state (w : World) (lim : PathLimits) (fuel : Nat) (src : Nat)
    (dsts : List Nat) : Except String SearchState :=
  if !(w.typeOf src).is_subclass w.mifTid then
    .error "src type is not MODULEINTERFACE"
  else if dsts.any (fun d => !(w.typeOf d).is_subclass w.mifTid) then
    .error "dst type is not MODULEINTERFACE"
  else
    let s := handle_path w lim (SearchState.init (w.selfGifOf src) dsts) 0
    .ok (bfs_loop w lim fuel s)

/-- Final pass of `find_paths`: `_filter_incomplete` keeps the valid paths
whose `not_complete` flag is false. -/
def kept_ids (s : SearchState) : List Nat :=
  s.validPaths.filter (fun id => !(s.store id).data.notComplete)

def find_paths (w : World) (lim : PathLimits) (fuel : Nat) (src : Nat)
    (dsts : List Nat) : Except String (List (List Nat)) :=
  (find_paths_state w lim fuel src dsts).map (fun s =>
    (kept_ids s).map (fun id => (s.store id).path))

/-! ### Graph mutation lemmas and claims C3, C4, C5 -/

theorem alookup_aerase_self {κ β : Type} [DecidableEq κ]
    (m : List (κ × β)) (k : κ) : alookup (aerase m k) k = none := by
  induction m with
  | nil => rfl
  | cons hd tl ih =>
    obtain ⟨a, b⟩ := hd
    by_cases hh : a = k
    · have : aerase ((a, b) :: tl) k = aerase tl k := by simp [aerase, hh]
      rw [this, ih]
    · have : aerase ((a, b) :: tl) k = (a, b) :: aerase tl k := by
        simp [aerase, hh]
      rw [this]
      simp only [alookup, if_neg hh]
      exact ih

theorem mem_sinsert (l : List (Nat × Nat)) (x y : Nat × Nat) :
    y ∈ sinsert l x ↔ y = x ∨ y ∈ l := by
  unfold sinsert
  split
  · constructor
    · exact fun h => Or.inr h
    · rintro (rfl | h) <;> assumption
  · simp [List.mem_cons]

/-- Cache consistency: a link recorded in `e_cache` for an ordered pair is
also recorded in `e_cache_simple` for that pair.  (The converse fails
after `remove_edge`, see `remove_edge_breaks_symmetry`.) -/
def CacheConsistent (g : GraphM) : Prop :=
  ∀ a b l, alookup g.eCache (a, b) = some l → (a, b) ∈ g.eCacheSimple

theorem add_edge_consistent (g g' : GraphM) (link : GLink)
    (hc : CacheConsistent g) (h : Graph.add_edge g link = .ok g') :
    CacheConsistent g' := by
  unfold Graph.add_edge at h
  by_cases hs : link.setup = false
  · simp [hs] at h
  · rw [if_neg hs] at h
    by_cases hm : (link.gfrom, link.gto) ∈ g.eCacheSimple
    · simp [hm] at h
    · rw [if_neg hm] at h
      injection h with h
      subst h
      intro a b l hl
      simp only at hl ⊢
      by_cases h1 : (a, b) = (link.gto, link.gfrom)
      · rw [mem_sinsert, mem_sinsert]
        exact Or.inl h1
      · rw [alookup_aset_ne _ _ _ _ h1] at hl
        by_cases h2 : (a, b) = (link.gfrom, link.gto)
        · rw [mem_sinsert, mem_sinsert]
          exact Or.inr (Or.inl h2)
        · rw [alookup_aset_ne _ _ _ _ h2] at hl
          rw [mem_sinsert, mem_sinsert]
          exact Or.inr (Or.inr (hc a b l hl))

theorem remove_edge_consistent (g g' : GraphM) (link : GLink)
    (hc : CacheConsistent g) (h : Graph.remove_edge g link = .ok g') :
    CacheConsistent g' := by
  unfold Graph.remove_edge at h
  by_cases hs : link.setup = false
  · simp [hs] at h
  · rw [if_neg hs] at h
    by_cases hm : (link.gfrom, link.gto) ∉ g.eCacheSimple
    · rw [if_pos hm] at h
      injection h with h
      subst h
      exact hc
    · rw [if_neg hm] at h
      by_cases hl : alookup g.eCache (link.gfrom, link.gto) ≠ some link
      · simp [hl] at h
      · rw [if_neg hl] at h
        injection h with h
        subst h
        intro a b l hlk
        simp only at hlk ⊢
        by_cases h1 : (a, b) = (link.gto, link.gfrom)
        · rw [h1, alookup_aerase_self] at hlk
          cases hlk
        · rw [alookup_aerase_ne _ _ _ h1] at hlk
          by_cases h2 : (a, b) = (link.gfrom, link.gto)
          · rw [h2, alookup_aerase_self] at hlk
            cases hlk
          · rw [alookup_aerase_ne _ _ _ h2] at hlk
            rw [List.mem_filter]
            refine ⟨hc a b l hlk, ?_⟩
            simp [h2]

theorem applyGOp_consistent (g : GraphM) (op : GOp) (hc : CacheConsistent g) :
    CacheConsistent (applyGOp g op) := by
  unfold applyGOp
  cases op with
  | connect s o f =>
    simp only
    cases hcall : GraphInterface.connect g s o f with
    | ok g' =>
      exact add_edge_consistent g g' _ hc hcall
    | error _ => exact hc
  | connectLink s o l =>
    simp only
    cases hcall : GraphInterface.connect_link g s o l with
    | ok g' =>
      unfold GraphInterface.connect_link at hcall
      by_cases hsetup : l.setup
      · simp [hsetup] at hcall
      · rw [if_neg hsetup] at hcall
        cases hadd : Graph.add_edge g { l with gfrom := s, gto := o, setup := true } with
        | ok g2 =>
          rw [hadd] at hcall
          injection hcall with hcall
          subst hcall
          exact add_edge_consistent g _ _ hc hadd
        | error e =>
          rw [hadd] at hcall
          cases hcall
    | error _ => exact hc
  | removeEdge l =>
    simp only
    cases hcall : Graph.remove_edge g l with
    | ok g' => exact remove_edge_consistent g g' _ hc hcall
    | error _ => exact hc

theorem reachable_consistent (g : GraphM) (hr : ReachableGraph g) :
    CacheConsistent g := by
  obtain ⟨ops, rfl⟩ := hr
  unfold applyGOps
  have hbase : CacheConsistent emptyGraph := by
    intro a b l hl
    cases hl
  generalize emptyGraph = g0 at hbase ⊢
  induction ops generalizing g0 with
  | nil => exact hbase
  | cons op rest ih =>
    exact ih (applyGOp g0 op) (applyGOp_consistent g0 op hbase)

/-- Claim C3 failing input: install a single `Direct` link between gifs 0
and 1 and remove it again.  `remove_edge` erases `e_cache_simple[from]`
but never `e_cache_simple[to]`, so the simple adjacency keeps `(1, 0)`
while `(0, 1)`, both link-cache entries and the edge are gone. -/
def bugGraph : GraphM :=
  applyGOps emptyGraph
    [GOp.connectLink 0 1 ⟨0, 0, 0, false, true⟩,
     GOp.removeEdge ⟨0, 0, 1, true, true⟩]

/-- Claim C3: after the connect/disconnect sequence of `bugGraph` the
adjacency caches are not symmetric and not consistent with the (empty)
edge list: `(1,0)` is still a simple-cache neighbour pair although
`(0,1)` is not, the link cache is empty, and so is the edge list.  This
contradicts the specified invariant; the code drops the reverse
simple-cache entry in `Graph::remove_edge`. -/
theorem remove_edge_breaks_symmetry :
    (1, 0) ∈ bugGraph.eCacheSimple ∧ (0, 1) ∉ bugGraph.eCacheSimple ∧
    bugGraph.e = [] ∧ alookup bugGraph.eCache (1, 0) = none ∧
    alookup bugGraph.eCache (0, 1) = none := by
  decide

/-- Claim C4: merging two distinct valid graphs (their interface sets are
disjoint, since every interface belongs to exactly one graph) adds node
counts and edge counts. -/
theorem merge_graphs_counts (g1 g2 : GraphM) (hd : ∀ x ∈ g1.v, x ∉ g2.v) :
    Graph.node_count (Graph.merge_graphs g1 g2) =
      Graph.node_count g1 + Graph.node_count g2 ∧
    Graph.edge_count (Graph.merge_graphs g1 g2) =
      Graph.edge_count g1 + Graph.edge_count g2 := by
  have hfilter2 : g2.v.filter (fun x => decide (x ∉ g1.v)) = g2.v := by
    rw [List.filter_eq_self]
    intro a ha
    simp only [decide_eq_true_eq]
    intro hc
    exact hd a hc ha
  have hfilter1 : g1.v.filter (fun x => decide (x ∉ g2.v)) = g1.v := by
    rw [List.filter_eq_self]
    intro a ha
    simp only [decide_eq_true_eq]
    intro hc
    exact hd a ha hc
  unfold Graph.merge_graphs
  split
  · refine ⟨?_, ?_⟩
    · show (g1.v ++ List.filter (fun x => decide (x ∉ g1.v)) g2.v).length =
        g1.v.length + g2.v.length
      rw [hfilter2, List.length_append]
    · show (g1.e ++ g2.e).length = g1.e.length + g2.e.length
      rw [List.length_append]
  · refine ⟨?_, ?_⟩
    · show (g2.v ++ List.filter (fun x => decide (x ∉ g2.v)) g1.v).length =
        g1.v.length + g2.v.length
      rw [hfilter1, List.length_append, Nat.add_comm]
    · show (g2.e ++ g1.e).length = g1.e.length + g2.e.length
      rw [List.length_append, Nat.add_comm]

/-- Witness for C4 at concrete disjoint graphs. -/
theorem merge_graphs_counts_witness :
    (∀ x ∈ ({ emptyGraph with v := [0, 1] } : GraphM).v,
      x ∉ ({ emptyGraph with v := [2] } : GraphM).v) ∧
    Graph.node_count (Graph.merge_graphs { emptyGraph with v := [0, 1] }
      { emptyGraph with v := [2] }) = 3 := by
  refine ⟨by decide, ?_⟩
  have h := merge_graphs_counts { emptyGraph with v := [0, 1] }
    { emptyGraph with v := [2] } (by decide)
  rw [h.1]
  decide

/-- Claim C5: on any reachable graph, a second `connect(a, b)` between an
already-connected pair raises `LinkExists` carrying the previously
installed link and the newly created one. -/
theorem connect_already_connected (g : GraphM) (a b : Nat) (l : GLink)
    (hr : ReachableGraph g) (hl : alookup g.eCache (a, b) = some l)
    (fresh : Nat) :
    GraphInterface.connect g a b fresh =
      .error (.linkExists (some l)
        { lid := fresh, gfrom := a, gto := b, setup := true,
          cloneable := true }) := by
  have hmem : (a, b) ∈ g.eCacheSimple := reachable_consistent g hr a b l hl
  unfold GraphInterface.connect Graph.add_edge
  simp only [hmem, if_pos, hl]
  rfl

/-- Witness for C5: connect gifs 0 and 1, then connect them again. -/
theorem connect_already_connected_witness :
    GraphInterface.connect (applyGOps emptyGraph [GOp.connect 0 1 0]) 0 1 7 =
      .error (.linkExists
        (some { lid := 0, gfrom := 0, gto := 1, setup := true, cloneable := true })
        { lid := 7, gfrom := 0, gto := 1, setup := true, cloneable := true }) := by
  exact connect_already_connected _ 0 1 _ ⟨[GOp.connect 0 1 0], rfl⟩ (by decide) 7

/-! ### Claims C9 (connect_many), C8 (connected_nodes), C10 (conditional links) -/

def installedClone (link : GLink) (fresh self o : Nat) : GLink :=
  { lid := fresh, gfrom := self, gto := o, setup := true,
    cloneable := link.cloneable }

theorem connect_link_ok_cache (g g1 : GraphM) (self o : Nat) (l : GLink)
    (hs : l.setup = false)
    (h : GraphInterface.connect_link g self o l = .ok g1) :
    g1.eCache =
      aset (aset g.eCache (self, o) { l with gfrom := self, gto := o, setup := true })
        (o, self) { l with gfrom := self, gto := o, setup := true } := by
  unfold GraphInterface.connect_link at h
  rw [if_neg (by rw [hs]; exact Bool.false_ne_true)] at h
  unfold Graph.add_edge at h
  simp only [Bool.true_eq_false, if_neg, reduceIte] at h
  by_cases hmem : (self, o) ∈ g.eCacheSimple
  · rw [if_pos hmem] at h
    cases h
  · rw [if_neg hmem] at h
    injection h with h
    rw [← h]

theorem connect_many_go_lookup (self : Nat) (link : GLink) :
    ∀ (others : List Nat) (g g' : GraphM) (fresh : Nat),
      connect_many_go g self others link fresh = .ok g' →
      (∀ o ∈ others, ∃ c, alookup g'.eCache (self, o) = some c ∧
        fresh ≤ c.lid ∧ c.cloneable = link.cloneable ∧ c.setup = true) ∧
      (∀ k c, alookup g.eCache k = some c →
        ∃ c', alookup g'.eCache k = some c' ∧
          (c' = c ∨ (fresh ≤ c'.lid ∧ c'.cloneable = link.cloneable ∧
            c'.setup = true))) := by
  intro others
  induction others with
  | nil =>
    intro g g' fresh h
    unfold connect_many_go at h
    injection h with h
    subst h
    exact ⟨fun o ho => absurd ho (List.not_mem_nil o),
      fun k c hk => ⟨c, hk, Or.inl rfl⟩⟩
  | cons o rest ih =>
    intro g g' fresh h
    unfold connect_many_go at h
    cases hcl : GraphInterface.connect_link g self o (Link.clone link fresh) with
    | error e =>
      rw [hcl] at h
      cases h
    | ok g1 =>
      rw [hcl] at h
      have hcache := connect_link_ok_cache g g1 self o (Link.clone link fresh)
        rfl hcl
      have hg1 : ∀ k, alookup g1.eCache k =
          alookup (aset (aset g.eCache (self, o) (installedClone link fresh self o))
            (o, self) (installedClone link fresh self o)) k := by
        intro k
        rw [hcache]
        rfl
      obtain ⟨ihMem, ihPers⟩ := ih g1 g' (fresh + 1) h
      have hLval : alookup g1.eCache (self, o) =
          some (installedClone link fresh self o) := by
        rw [hg1]
        by_cases hoo : (self, o) = (o, self)
        · rw [hoo, alookup_aset_same]
        · rw [alookup_aset_ne _ _ _ _ hoo, alookup_aset_same]
      constructor
      · intro x hx
        rcases List.mem_cons.mp hx with rfl | hx'
        · obtain ⟨c', hc', hor⟩ := ihPers (self, x) _ hLval
          refine ⟨c', hc', ?_⟩
          rcases hor with rfl | ⟨hle, hcl2, hst⟩
          · exact ⟨Nat.le_refl _, rfl, rfl⟩
          · exact ⟨Nat.le_of_succ_le hle, hcl2, hst⟩
        · obtain ⟨c, hc, hle, hclone, hst⟩ := ihMem x hx'
          exact ⟨c, hc, Nat.le_of_succ_le hle, hclone, hst⟩
      · intro k c hk
        by_cases hk1 : k = (o, self)
        · have : alookup g1.eCache k = some (installedClone link fresh self o) := by
            rw [hg1, hk1, alookup_aset_same]
          obtain ⟨c', hc', hor⟩ := ihPers k _ this
          refine ⟨c', hc', Or.inr ?_⟩
          rcases hor with rfl | ⟨hle, hcl2, hst⟩
          · exact ⟨Nat.le_refl _, rfl, rfl⟩
          · exact ⟨Nat.le_of_succ_le hle, hcl2, hst⟩
        · by_cases hk2 : k = (self, o)
          · have : alookup g1.eCache k = some (installedClone link fresh self o) := by
              rw [hk2]
              exact hLval
            obtain ⟨c', hc', hor⟩ := ihPers k _ this
            refine ⟨c', hc', Or.inr ?_⟩
            rcases hor with rfl | ⟨hle, hcl2, hst⟩
            · exact ⟨Nat.le_refl _, rfl, rfl⟩
            · exact ⟨Nat.le_of_succ_le hle, hcl2, hst⟩
          · have : alookup g1.eCache k = some c := by
              rw [hg1, alookup_aset_ne _ _ _ _ hk1,
                alookup_aset_ne _ _ _ _ hk2]
              exact hk
            obtain ⟨c', hc', hor⟩ := ihPers k _ this
            refine ⟨c', hc', ?_⟩
            rcases hor with rfl | ⟨hle, hcl2, hst⟩
            · exact Or.inl rfl
            · exact Or.inr ⟨Nat.le_of_succ_le hle, hcl2, hst⟩

/-- Claim C9 (amended): `connect_many` with a single element installs the
supplied link itself with no cloneability check; with any other arity a
non-cloneable link fails with the not-cloneable error, and on success each
element of `others` ends up connected through a fresh clone of the link
(same cloneability, different identity, freshly set up). -/
theorem connect_many_spec (g : GraphM) (self : Nat) (others : List Nat)
    (link : GLink) (fresh : Nat) :
    (others.length = 1 →
      GraphInterface.connect_many g self others link fresh =
        GraphInterface.connect_link g self (others.headD 0) link) ∧
    (others.length ≠ 1 → link.cloneable = false →
      GraphInterface.connect_many g self others link fresh =
        .error .notCloneable) ∧
    (∀ g', others.length ≠ 1 → link.lid < fresh →
      GraphInterface.connect_many g self others link fresh = .ok g' →
      ∀ o ∈ others, ∃ c, alookup g'.eCache (self, o) = some c ∧
        c.lid ≠ link.lid ∧ c.cloneable = link.cloneable ∧ c.setup = true) := by
  refine ⟨?_, ?_, ?_⟩
  · intro h1
    unfold GraphInterface.connect_many
    rw [if_pos h1]
  · intro h1 hcl
    unfold GraphInterface.connect_many
    rw [if_neg h1, if_pos hcl]
  · intro g' h1 hlid hok o ho
    unfold GraphInterface.connect_many at hok
    rw [if_neg h1] at hok
    by_cases hcl : link.cloneable = false
    · rw [if_pos hcl] at hok
      cases hok
    · rw [if_neg hcl] at hok
      obtain ⟨hmem, _⟩ := connect_many_go_lookup self link others g g' fresh hok
      obtain ⟨c, hc, hle, hclone, hst⟩ := hmem o ho
      refine ⟨c, hc, ?_, hclone, hst⟩
      exact Nat.ne_of_gt (Nat.lt_of_lt_of_le hlid hle)

def cloneableLink0 : GLink :=
  { lid := 0, gfrom := 0, gto := 0, setup := false, cloneable := true }

def connectManyResult : GraphM :=
  match GraphInterface.connect_many emptyGraph 0 [1, 2] cloneableLink0 5 with
  | .ok g' => g'
  | .error _ => emptyGraph

/-- Witness for C9 (amended) at a two-element list with a cloneable link. -/
theorem connect_many_spec_witness :
    ([1, 2].length ≠ 1) ∧ cloneableLink0.lid < 5 ∧
    (∃ c, alookup connectManyResult.eCache (0, 1) = some c ∧
      c.lid ≠ cloneableLink0.lid ∧ c.cloneable = cloneableLink0.cloneable ∧
      c.setup = true) := by
  refine ⟨by decide, by decide, ?_⟩
  exact (connect_many_spec emptyGraph 0 [1, 2] cloneableLink0 5).2.2
    connectManyResult (by decide) (by decide) (by rfl) 1 (by decide)

def notCloneableLink : GLink :=
  { lid := 5, gfrom := 0, gto := 0, setup := false, cloneable := false }

/-- Claim C9 counterexample: `connect_many` with a single-element list and
a non-cloneable link does not fail: the `others.size() == 1` shortcut
installs the supplied link itself (identity 5 is preserved, no clone is
made), contradicting the claim that a non-cloneable link always fails and
that each element is connected through a clone. -/
theorem connect_many_counterexample :
    notCloneableLink.cloneable = false ∧
    (GraphInterface.connect_many emptyGraph 1 [2] notCloneableLink 10).isOk =
      true ∧
    (match GraphInterface.connect_many emptyGraph 1 [2] notCloneableLink 10 with
     | .ok g' => alookup g'.eCache (1, 2)
     | .error _ => none) =
      some { lid := 5, gfrom := 1, gto := 2, setup := true,
             cloneable := false } := by
  decide

/-- Claim C8 (amended): membership in `get_connected_nodes` is exactly:
some edge of the gif leads to a neighbour whose link casts to
`LinkDirect` (so also the conditional and derived variants) and whose
owning node's type is a subclass of one of the requested types. -/
theorem get_connected_nodes_spec (w : World) (gif : Nat) (types : List Nat)
    (n : Nat) :
    n ∈ GraphInterface.get_connected_nodes w gif types ↔
      ∃ e, e ∈ w.edges gif ∧ e.2.isDirectCast = true ∧ w.nodeOf e.1 = n ∧
        Node.isinstance w n types = true := by
  unfold GraphInterface.get_connected_nodes
  rw [List.mem_dedup, List.mem_filterMap]
  constructor
  · rintro ⟨e, he, hf⟩
    by_cases h1 : e.2.isDirectCast = true
    · rw [if_pos h1] at hf
      by_cases h2 : Node.isinstance w (w.nodeOf e.1) types = true
      · rw [if_pos h2] at hf
        injection hf with hf
        subst hf
        exact ⟨e, he, h1, rfl, h2⟩
      · rw [if_neg h2] at hf
        cases hf
    · rw [if_neg h1] at hf
      cases hf
  · rintro ⟨e, he, h1, h2, h3⟩
    refine ⟨e, he, ?_⟩
    rw [if_pos h1, h2, if_pos h3]

def condPass : List Nat → FilterResult := fun _ => .pass

def W8 : World :=
  { mifTid := 99, kind := fun _ => .other, nodeOf := fun g => g,
    typeOf := fun _ => ⟨5, []⟩, adj := fun _ => [],
    edges := fun g => if g = 0 then [(1, .directConditional condPass true)] else [],
    vIndex := fun g => g, nodeCount := 2, selfGifOf := fun n => n,
    childrenGifOf := fun n => n, parentGifOf := fun n => n }

/-- Claim C8 counterexample: gif 0 is connected to gif 1 through a
`LinkDirectConditional` (not a plain `Direct` link), node 1 has the
requested type, and the code returns node 1 anyway, while the literal
spec reading (plain `Direct` only) would return nothing. -/
theorem get_connected_nodes_counterexample :
    GraphInterface.get_connected_nodes W8 0 [5] = [1] ∧
    spec_connected_nodes_plain_direct W8 0 [5] = [] := by
  exact ⟨rfl, rfl⟩

/-- Claim C10: constructing a `LinkDirectConditional` with
`only_first_in_path` false always fails; every successfully constructed
conditional or derived link carries the flag true; and under that flag
the conditional-link filter skips (never evaluates) every edge that does
not end at the path's last gif, so the whole-path evaluation mode is
never exercised. -/
theorem conditional_links_only_first :
    (∀ f, LinkDirectConditional.mk_checked f false =
      .error "No support for path conditions with implied links on") ∧
    (∀ f b l, LinkDirectConditional.mk_checked f b = .ok l →
      l.onlyFirstOf = some true) ∧
    (∀ w p l, LinkDirectDerived.mk_checked w p = .ok l →
      l.onlyFirstOf = some true) ∧
    (∀ w p e, (∀ a b lk, w.getLink a b = some lk → lk.onlyFirstOf ≠ some false) →
      e ∈ pathEdges p → e.2 ≠ lastGif p → condEdgeOk w p e = true) := by
  refine ⟨?_, ?_, ?_, ?_⟩
  · intro f
    rfl
  · intro f b l h
    cases b with
    | false => cases h
    | true =>
      injection h with h
      subst h
      rfl
  · intro w p l h
    unfold LinkDirectDerived.mk_checked at h
    cases hb : (LinkDirectDerived.make_filter_from_path w p).2 with
    | false =>
      rw [hb] at h
      simp [LinkDirectConditional.mk_checked] at h
    | true =>
      rw [hb] at h
      simp only [LinkDirectConditional.mk_checked, Bool.true_eq_false, if_neg,
        reduceIte] at h
      injection h with h
      subst h
      rfl
  · intro w p e hall hmem hne
    unfold condEdgeOk
    cases hlk : w.getLink e.1 e.2 with
    | none => rfl
    | some lk =>
      have hof := hall e.1 e.2 lk hlk
      cases lk with
      | directConditional f o =>
        cases o with
        | false => simp [Link.onlyFirstOf] at hof
        | true =>
          have : (e.2 == lastGif p) = false := beq_false_of_ne hne
          simp [this]
      | directDerived f o =>
        cases o with
        | false => simp [Link.onlyFirstOf] at hof
        | true =>
          have : (e.2 == lastGif p) = false := beq_false_of_ne hne
          simp [this]
      | direct => rfl
      | parentLink => rfl
      | namedParent name => rfl
      | pointer => rfl
      | sibling => rfl

def Wempty : World :=
  { mifTid := 7, kind := fun _ => .self, nodeOf := fun g => g,
    typeOf := fun _ => ⟨7, []⟩, adj := fun _ => [], edges := fun _ => [],
    vIndex := fun g => g, nodeCount := 2, selfGifOf := fun n => n,
    childrenGifOf := fun n => n, parentGifOf := fun n => n }

/-- Witness for C10 at concrete inputs: the rejected constructor call, a
successful one, and the skip of a non-final conditional edge in a world
without conditional links. -/
theorem conditional_links_only_first_witness :
    LinkDirectConditional.mk_checked condPass false =
      .error "No support for path conditions with implied links on" ∧
    (LinkDirectConditional.mk_checked condPass true).isOk = true ∧
    condEdgeOk Wempty [0, 1, 2] (0, 1) = true := by
  have h := conditional_links_only_first
  refine ⟨h.1 condPass, by rfl, ?_⟩
  refine h.2.2.2 Wempty [0, 1, 2] (0, 1) ?_ (by decide) (by decide)
  intro a b lk hlk
  simp [World.getLink, Wempty, alookup] at hlk

/-! ### List helper lemmas for path prefixes -/

theorem take_getD (p : List Nat) : ∀ (k j : Nat), j < k →
    (p.take k).getD j 0 = p.getD j 0 := by
  induction p with
  | nil => intro k j _; simp
  | cons a t ih =>
    intro k j hj
    cases k with
    | zero => cases hj
    | succ k' =>
      cases j with
      | zero => rfl
      | succ j' =>
        simp only [List.take_succ_cons, List.getD_cons_succ]
        exact ih k' j' (Nat.lt_of_succ_lt_succ hj)

theorem getLastD_irrel (p : List Nat) (hne : p ≠ []) (a b : Nat) :
    p.getLastD a = p.getLastD b := by
  cases p with
  | nil => exact absurd rfl hne
  | cons x t =>
    induction t generalizing x with
    | nil => rfl
    | cons y t' ih => simpa using ih y

theorem lastGif_eq_getD (p : List Nat) (hne : p ≠ []) :
    lastGif p = p.getD (p.length - 1) 0 := by
  unfold lastGif
  induction p with
  | nil => exact absurd rfl hne
  | cons x t ih =>
    by_cases ht : t = []
    · subst ht; rfl
    · have h1 : (x :: t).getLastD 0 = t.getLastD 0 := by
        rw [List.getLastD_cons]
        exact getLastD_irrel t ht x 0
      rw [h1, ih ht]
      have hlen : (x :: t).length - 1 = t.length := by simp
      rw [hlen]
      obtain ⟨y, t', rfl⟩ : ∃ y t', t = y :: t' := by
        cases t with
        | nil => exact absurd rfl ht
        | cons y t' => exact ⟨y, t', rfl⟩
      simp [List.length_cons]

theorem mem_pathEdges (p : List Nat) : ∀ (i : Nat), i + 1 < p.length →
    (p.getD i 0, p.getD (i + 1) 0) ∈ pathEdges p := by
  induction p with
  | nil => intro i h; cases h
  | cons a t ih =>
    intro i hi
    cases t with
    | nil => simp at hi
    | cons b t' =>
      have hedges : pathEdges (a :: b :: t') = (a, b) :: pathEdges (b :: t') := rfl
      rw [hedges]
      cases i with
      | zero => exact List.mem_cons_self _ _
      | succ i' =>
        have : i' + 1 < (b :: t').length := by
          simpa using Nat.lt_of_succ_lt_succ hi
        exact List.mem_cons_of_mem _ (ih i' this)

theorem length_take_of_le (p : List Nat) (k : Nat) (h : k ≤ p.length) :
    (p.take k).length = k := by
  rw [List.length_take]
  exact Nat.min_eq_left h

theorem take_ne_nil_of_pos (p : List Nat) (k : Nat) (hk : 0 < k)
    (h : k ≤ p.length) : p.take k ≠ [] := by
  intro hc
  have := length_take_of_le p k h
  rw [hc] at this
  simp at this
  rw [← this] at hk
  exact Nat.lt_irrefl 0 hk

theorem lastGif_take (p : List Nat) (i : Nat) (h : i + 2 ≤ p.length) :
    lastGif (p.take (i + 2)) = p.getD (i + 1) 0 := by
  have hne : p.take (i + 2) ≠ [] :=
    take_ne_nil_of_pos p (i + 2) (Nat.succ_pos _) h
  rw [lastGif_eq_getD _ hne, length_take_of_le p _ h]
  have : i + 2 - 1 = i + 1 := rfl
  rw [this]
  exact take_getD p (i + 2) (i + 1) (Nat.lt_succ_self _)

theorem headD_append (p q : List Nat) (hne : p ≠ []) :
    (p ++ q).headD 0 = p.headD 0 := by
  cases p with
  | nil => exact absurd rfl hne
  | cons a t => rfl

theorem filter_conditional_link_nil (w : World) :
    filter_conditional_link w [] = true := rfl

theorem filter_conditional_link_single (w : World) (x : Nat) :
    filter_conditional_link w [x] = true := rfl

/-! ### Invariant predicates for the path search -/

/-- Every prefix of the path (including the full path) passes the
conditional-link filter; short prefixes pass trivially. -/
def CondAll (w : World) (p : List Nat) : Prop :=
  ∀ k, k ≤ p.length → filter_conditional_link w (p.take k) = true

/-- A path produced by the BFS: nonempty, rooted at the seed gif, and
conditional-clean on every prefix. -/
def GoodPath (w : World) (root : Nat) (p : List Nat) : Prop :=
  p ≠ [] ∧ p.headD 0 = root ∧ CondAll w p

/-- What holds of every recorded valid path: a good path that ends in a
self gif of the source's node type with an empty unresolved stack. -/
def ValidGood (w : World) (root : Nat) (s : SearchState) (id : Nat) : Prop :=
  GoodPath w root (s.store id).path ∧
  filter_path_by_end_in_self_gif w (s.store id).path = true ∧
  filter_path_same_end_type w (s.store id).path = true ∧
  (s.store id).data.unresolvedStack = []

/-- The search invariant: queue and hibernation members are good paths,
valid paths satisfy the validity filters, and all tracked ids are below
the id frontier. -/
def Inv (w : World) (root : Nat) (s : SearchState) : Prop :=
  (∀ id ∈ s.queue, id < s.nextId ∧ GoodPath w root (s.store id).path) ∧
  (∀ id ∈ s.hib, id < s.nextId ∧ GoodPath w root (s.store id).path) ∧
  (∀ id ∈ s.validPaths, id < s.nextId ∧ ValidGood w root s id)

/-- Per-edge conditional guarantee of a returned path: every conditional
link's filter passes, evaluated per its `only_first_in_path` mode (on the
prefix ending at the edge, respectively on the whole path). -/
def CondLinkSpec (w : World) (p : List Nat) : Prop :=
  ∀ i f only, i + 1 < p.length →
    (w.getLink (p.getD i 0) (p.getD (i + 1) 0) =
        some (.directConditional f only) ∨
     w.getLink (p.getD i 0) (p.getD (i + 1) 0) =
        some (.directDerived f only)) →
    (only = true → f (p.take (i + 2)) = .pass) ∧
    (only = false → f p = .pass)

theorem condEdgeOk_eval (w : World) (p : List Nat) (e : Nat × Nat)
    (f : List Nat → FilterResult) (only : Bool)
    (hlk : w.getLink e.1 e.2 = some (.directConditional f only) ∨
           w.getLink e.1 e.2 = some (.directDerived f only))
    (hok : condEdgeOk w p e = true)
    (hguard : only = false ∨ e.2 = lastGif p) :
    f p = .pass := by
  unfold condEdgeOk at hok
  have hcond : (if only && !(e.2 == lastGif p) then true
      else f p == FilterResult.pass) = true := by
    rcases hlk with hlk | hlk <;> rw [hlk] at hok <;> exact hok
  have hg : (only && !(e.2 == lastGif p)) = false := by
    rcases hguard with rfl | hg
    · rfl
    · have : (e.2 == lastGif p) = true := by
        rw [hg]; exact beq_self_eq_true _
      rw [this]
      simp
  rw [hg, if_neg (by simp)] at hcond
  exact eq_of_beq hcond

theorem filter_conditional_link_edge (w : World) (p : List Nat) (e : Nat × Nat)
    (hlen : 2 ≤ p.length) (hmem : e ∈ pathEdges p)
    (hall : filter_conditional_link w p = true) : condEdgeOk w p e = true := by
  unfold filter_conditional_link at hall
  have hle : last_edge p = some (p.getD (p.length - 2) 0, lastGif p) := by
    unfold last_edge
    rw [if_neg (by exact Nat.not_lt.mpr hlen)]
  rw [hle] at hall
  exact List.all_eq_true.mp hall e hmem

theorem condall_implies_spec (w : World) (p : List Nat) (hc : CondAll w p) :
    CondLinkSpec w p := by
  intro i f only hi hlk
  constructor
  · intro honly
    have hk : i + 2 ≤ p.length := hi
    have hfull := hc (i + 2) hk
    have hlen2 : 2 ≤ (p.take (i + 2)).length := by
      rw [length_take_of_le p _ hk]
      exact Nat.le_add_left 2 i
    have hi' : i + 1 < (p.take (i + 2)).length := by
      rw [length_take_of_le p _ hk]
      exact Nat.lt_succ_self _
    have hmem := mem_pathEdges (p.take (i + 2)) i hi'
    rw [take_getD p (i + 2) i (by omega), take_getD p (i + 2) (i + 1) (by omega)]
      at hmem
    have hok := filter_conditional_link_edge w (p.take (i + 2)) _ hlen2 hmem hfull
    have hlast : (p.getD (i + 1) 0) = lastGif (p.take (i + 2)) :=
      (lastGif_take p i hk).symm
    exact condEdgeOk_eval w (p.take (i + 2)) _ f only hlk hok (Or.inr hlast)
  · intro honly
    have hfull := hc p.length (Nat.le_refl _)
    rw [List.take_length] at hfull
    have hlen2 : 2 ≤ p.length := by omega
    have hmem := mem_pathEdges p i hi
    have hok := filter_conditional_link_edge w p _ hlen2 hmem hfull
    exact condEdgeOk_eval w p _ f only hlk hok (Or.inl honly)

/-! ### Frame relation for the split handler

`_handle_valid_split_branch` mutates only flags, wake bookkeeping and the
strength of stored paths: it never changes a path vector, an unresolved
stack, a queue, the id frontier or the destinations, and it changes a
confidence only by setting it to one. -/

def Tame (s s' : SearchState) : Prop :=
  s'.queue = s.queue ∧ s'.hib = s.hib ∧ s'.validPaths = s.validPaths ∧
  s'.nextId = s.nextId ∧ s'.dsts = s.dsts ∧ s'.pathCnt = s.pathCnt ∧
  ∀ j, (s'.store j).path = (s.store j).path ∧
       (s'.store j).data.unresolvedStack = (s.store j).data.unresolvedStack ∧
       ((s'.store j).confidence = (s.store j).confidence ∨
        (s'.store j).confidence = 1)

theorem tame_refl (s : SearchState) : Tame s s :=
  ⟨rfl, rfl, rfl, rfl, rfl, rfl, fun _ => ⟨rfl, rfl, Or.inl rfl⟩⟩

theorem tame_trans {s1 s2 s3 : SearchState} (h1 : Tame s1 s2)
    (h2 : Tame s2 s3) : Tame s1 s3 := by
  obtain ⟨q1, h1b, v1, n1, d1, c1, st1⟩ := h1
  obtain ⟨q2, h2b, v2, n2, d2, c2, st2⟩ := h2
  refine ⟨q2.trans q1, h2b.trans h1b, v2.trans v1, n2.trans n1, d2.trans d1,
    c2.trans c1, fun j => ?_⟩
  obtain ⟨p1, u1, cf1⟩ := st1 j
  obtain ⟨p2, u2, cf2⟩ := st2 j
  refine ⟨p2.trans p1, u2.trans u1, ?_⟩
  rcases cf2 with hh | hh
  · rcases cf1 with hh' | hh'
    · exact Or.inl (hh.trans hh')
    · exact Or.inr (hh.trans hh')
  · exact Or.inr hh

theorem tame_updStore (s : SearchState) (i : Nat) (p : BFSPath)
    (h1 : p.path = (s.store i).path)
    (h2 : p.data.unresolvedStack = (s.store i).data.unresolvedStack)
    (h3 : p.confidence = (s.store i).confidence ∨ p.confidence = 1) :
    Tame s (updStore s i p) := by
  refine ⟨rfl, rfl, rfl, rfl, rfl, rfl, fun j => ?_⟩
  by_cases hj : j = i
  · subst hj
    simp only [updStore, upd_same]
    exact ⟨h1, h2, h3⟩
  · refine ⟨?_, ?_, Or.inl ?_⟩ <;>
      simp [updStore, upd_ne _ _ _ _ hj]

theorem tame_setSplitMap (s : SearchState)
    (m : List (Nat × List (List Nat × SplitState))) :
    Tame s { s with splitMap := m } := by
  refine ⟨rfl, rfl, rfl, rfl, rfl, rfl, fun _ => ⟨rfl, rfl, Or.inl rfl⟩⟩

theorem foldl_tame {α : Type} (f : SearchState → α → SearchState)
    (hf : ∀ s a, Tame s (f s a)) :
    ∀ (l : List α) (s : SearchState), Tame s (l.foldl f s) := by
  intro l
  induction l with
  | nil => intro s; exact tame_refl s
  | cons a t ih =>
    intro s
    exact tame_trans (hf s a) (ih (f s a))

theorem mark_wait_filtered_tame (s : SearchState)
    (wp : List (Nat × List Nat)) : Tame s (mark_wait_filtered s wp) := by
  unfold mark_wait_filtered
  refine foldl_tame _ (fun t cw => ?_) wp s
  refine foldl_tame _ (fun t' wid => ?_) cw.2 t
  exact tame_updStore t' wid _ (by rfl) (by rfl) (Or.inl (by rfl))

theorem branch_inner_tame (id childGif : Nat) :
    ∀ (entries : List (List Nat × SplitState)) (s : SearchState),
      Tame s (branch_inner id childGif s entries).2.1 := by
  intro entries
  induction entries with
  | nil => intro s; exact tame_refl s
  | cons e rest ih =>
    intro s
    obtain ⟨pre, st⟩ := e
    unfold branch_inner
    dsimp only
    split
    · exact ih s
    · split
      · exact ih s
      · split
        · split
          · exact tame_refl s
          · exact tame_trans
              (tame_updStore s _ _ (by rfl) (by rfl) (Or.inl (by rfl)))
              (tame_updStore _ id _ (by rfl) (by rfl) (Or.inl (by rfl)))
        · exact mark_wait_filtered_tame s _

theorem branch_outer_tame (id : Nat) :
    ∀ (elems : List PathStackElement) (s : SearchState),
      Tame s (branch_outer id s elems).1 := by
  intro elems
  induction elems with
  | nil => intro s; exact tame_refl s
  | cons elem rest ih =>
    intro s
    unfold branch_outer
    dsimp only
    split
    · exact tame_trans
        (branch_inner_tame id elem.childGif
          ((alookup s.splitMap elem.parentGif).getD []) s)
        (tame_setSplitMap _ _)
    · exact tame_trans
        (tame_trans
          (branch_inner_tame id elem.childGif
            ((alookup s.splitMap elem.parentGif).getD []) s)
          (tame_setSplitMap _ _))
        (ih _)

theorem mark_strong_tame (s : SearchState) (id : Nat)
    (entries : List (List Nat × SplitState)) :
    Tame s (mark_strong s id entries) := by
  unfold mark_strong
  refine foldl_tame _ (fun t prst => ?_) entries s
  split
  · refine foldl_tame _ (fun t' cps => ?_) prst.2.suffixCompletePaths t
    refine foldl_tame _ (fun t'' pid => ?_) cps.2 t'
    exact tame_trans
      (tame_updStore t'' pid _ (by rfl) (by rfl) (Or.inr (by rfl)))
      (tame_updStore _ id _ (by rfl) (by rfl) (Or.inl (by rfl)))
  · exact tame_refl t

theorem hvsb_tame (w : World) (s : SearchState) (id : Nat) :
    Tame s (handle_valid_split_branch w s id).1 := by
  unfold handle_valid_split_branch
  dsimp only
  split
  · exact tame_refl s
  · split
    · exact branch_outer_tame id _ s
    · exact tame_trans (branch_outer_tame id _ s) (mark_strong_tame _ id _)

theorem hvsb_true (w : World) (s : SearchState) (id : Nat) :
    (handle_valid_split_branch w s id).2 = true := by
  unfold handle_valid_split_branch
  dsimp only
  split
  · rfl
  · split
    · rfl
    · rfl

/-! ### Frame lemmas for the stateful discovery filters -/

theorem updStore_store_ne (s : SearchState) (i : Nat) (p : BFSPath) (j : Nat)
    (h : j ≠ i) : (updStore s i p).store j = s.store j :=
  upd_ne s.store i p j h

theorem count_filter_tame (lim : PathLimits) (s : SearchState) (id : Nat) :
    Tame { s with pathCnt := s.pathCnt + 1 } (count_filter lim s id) := by
  unfold count_filter
  dsimp only
  split
  · exact tame_updStore _ id _ (by rfl) (by rfl) (Or.inl (by rfl))
  · exact tame_refl _

theorem count_filter_store_ne (lim : PathLimits) (s : SearchState) (id j : Nat)
    (h : j ≠ id) : (count_filter lim s id).store j = s.store j := by
  unfold count_filter
  dsimp only
  split
  · exact updStore_store_ne _ id _ j h
  · rfl

theorem markFiltered_tame (s : SearchState) (id : Nat) :
    Tame s (markFiltered s id) :=
  tame_updStore s id _ (by rfl) (by rfl) (Or.inl (by rfl))

theorem markFiltered_filtered (s : SearchState) (id : Nat) :
    ((markFiltered s id).store id).filtered = true := by
  simp [markFiltered, updStore, upd]

theorem hns_tame (w : World) (s : SearchState) (id : Nat)
    (elem : PathStackElement) : Tame s (handle_new_split w s id elem).1 := by
  unfold handle_new_split
  dsimp only
  split
  · split
    · exact tame_updStore s id _ (by rfl) (by rfl) (Or.inl (by rfl))
    · split
      · exact tame_updStore s id _ (by rfl) (by rfl) (Or.inl (by rfl))
      · exact tame_trans
          (tame_trans
            (tame_updStore s id _ (by rfl) (by rfl) (Or.inl (by rfl)))
            (tame_updStore _ id _ (by simp [updStore]) (by simp [updStore])
              (Or.inl (by simp [updStore]))))
          (tame_setSplitMap _ _)
  · exact tame_trans
      (tame_updStore s id _ (by rfl) (by rfl) (Or.inl (by rfl)))
      (tame_setSplitMap _ _)

theorem hns_store_ne (w : World) (s : SearchState) (id : Nat)
    (elem : PathStackElement) (j : Nat) (h : j ≠ id) :
    (handle_new_split w s id elem).1.store j = s.store j := by
  unfold handle_new_split
  dsimp only
  split
  · split
    · exact updStore_store_ne _ id _ j h
    · split
      · exact updStore_store_ne _ id _ j h
      · show (updStore (updStore s id _) id _).store j = s.store j
        rw [updStore_store_ne _ id _ j h, updStore_store_ne _ id _ j h]
  · exact updStore_store_ne _ id _ j h

theorem hns_conf (w : World) (s : SearchState) (id : Nat)
    (elem : PathStackElement) (j : Nat) :
    ((handle_new_split w s id elem).1.store j).confidence =
      (s.store j).confidence := by
  by_cases hj : j = id
  · subst hj
    unfold handle_new_split
    dsimp only
    split
    · split
      · simp [updStore]
      · split
        · simp [updStore]
        · simp [updStore]
    · simp [updStore]
  · rw [hns_store_ne w s id elem j hj]

theorem extend_fold_stack_split (w : World) (elem : PathStackElement)
    (u : List UnresolvedStackElement) (sp : List PathStackElement) :
    (extend_fold_stack w elem u sp).2 = sp ∨
    (extend_fold_stack w elem u sp).2 = elem :: sp := by
  unfold extend_fold_stack fold_stack_push
  cases u with
  | nil =>
    dsimp only
    split
    · exact Or.inr rfl
    · exact Or.inl rfl
  | cons top rest =>
    dsimp only
    split
    · exact Or.inl rfl
    · dsimp only
      split
      · exact Or.inr rfl
      · exact Or.inl rfl

theorem bps_store_ne (w : World) (lim : PathLimits) (s : SearchState)
    (id j : Nat) (h : j ≠ id) :
    (build_path_stack_and_handle_splits w lim s id).1.store j = s.store j := by
  unfold build_path_stack_and_handle_splits
  dsimp only
  split
  · rfl
  · split
    · rfl
    · split
      · rfl
      · split
        · exact updStore_store_ne _ id _ j h
        · split
          · exact updStore_store_ne _ id _ j h
          · rw [hns_store_ne _ _ id _ j h, updStore_store_ne _ id _ j h]

theorem bps_frame (w : World) (lim : PathLimits) (s : SearchState) (id : Nat) :
    (build_path_stack_and_handle_splits w lim s id).1.queue = s.queue ∧
    (build_path_stack_and_handle_splits w lim s id).1.hib = s.hib ∧
    (build_path_stack_and_handle_splits w lim s id).1.validPaths =
      s.validPaths ∧
    (build_path_stack_and_handle_splits w lim s id).1.nextId = s.nextId ∧
    (build_path_stack_and_handle_splits w lim s id).1.dsts = s.dsts ∧
    (∀ j, ((build_path_stack_and_handle_splits w lim s id).1.store j).path =
      (s.store j).path) := by
  unfold build_path_stack_and_handle_splits
  dsimp only
  split
  · exact ⟨rfl, rfl, rfl, rfl, rfl, fun _ => rfl⟩
  · split
    · exact ⟨rfl, rfl, rfl, rfl, rfl, fun _ => rfl⟩
    · split
      · exact ⟨rfl, rfl, rfl, rfl, rfl, fun _ => rfl⟩
      · split
        · refine ⟨rfl, rfl, rfl, rfl, rfl, fun j => ?_⟩
          by_cases hj : j = id
          · subst hj; simp [updStore]
          · rw [updStore_store_ne _ id _ j hj]
        · split
          · refine ⟨rfl, rfl, rfl, rfl, rfl, fun j => ?_⟩
            by_cases hj : j = id
            · subst hj; simp [updStore]
            · rw [updStore_store_ne _ id _ j hj]
          · obtain ⟨hq, hh, hv, hn, hd, _, ht⟩ := hns_tame w
              (updStore s id _) id _
            refine ⟨hq.trans rfl, hh.trans rfl, hv.trans rfl, hn.trans rfl,
              hd.trans rfl, fun j => ?_⟩
            obtain ⟨hp, _, _⟩ := ht j
            rw [hp]
            by_cases hj : j = id
            · subst hj; simp [updStore]
            · rw [updStore_store_ne _ id _ j hj]

theorem bps_conf (w : World) (lim : PathLimits) (s : SearchState) (id : Nat)
    (h : 0 ≤ (s.store id).confidence) (j : Nat) :
    ((build_path_stack_and_handle_splits w lim s id).1.store j).confidence ≤
      (s.store j).confidence := by
  by_cases hj : j = id
  · subst hj
    have hmul : ∀ (e : PathStackElement) (sp : List PathStackElement)
        (stks : List UnresolvedStackElement × List PathStackElement),
        (stks.2 = sp ∨ stks.2 = e :: sp) →
        (s.store j).confidence *
          (1 / 2 : ℚ) ^ ((stks.2.length : ℤ) - (sp.length : ℤ)) ≤
          (s.store j).confidence := by
      intro e sp stks hsp
      rcases hsp with hsp | hsp
      · rw [hsp]
        simp
      · rw [hsp]
        have hone : (((e :: sp : List PathStackElement).length : ℤ) -
            (sp.length : ℤ)) = 1 := by
          simp
        rw [hone, zpow_one]
        exact mul_le_of_le_one_right h (by norm_num)
    unfold build_path_stack_and_handle_splits
    dsimp only
    split
    · exact le_refl _
    · split
      · exact le_refl _
      · split
        · exact le_refl _
        · split
          · show ((updStore s j _).store j).confidence ≤ _
            simp only [updStore, upd_same]
            exact hmul _ _ _ (extend_fold_stack_split _ _ _ _)
          · split
            · show ((updStore s j _).store j).confidence ≤ _
              simp only [updStore, upd_same]
              exact hmul _ _ _ (extend_fold_stack_split _ _ _ _)
            · rw [hns_conf]
              show ((updStore s j _).store j).confidence ≤ _
              simp only [updStore, upd_same]
              exact hmul _ _ _ (extend_fold_stack_split _ _ _ _)
  · rw [bps_store_ne w lim s id j hj]

/-! ### Behaviour of the filter pipeline -/

theorem run_filters_validity_spec (w : World) (s : SearchState) (id : Nat) :
    Tame s (run_filters_validity w s id).1 ∧
    ((run_filters_validity w s id).2 = true →
      filter_path_by_end_in_self_gif w (s.store id).path = true ∧
      filter_path_same_end_type w (s.store id).path = true ∧
      ((run_filters_validity w s id).1.store id).data.unresolvedStack = []) := by
  unfold run_filters_validity
  split
  · exact ⟨tame_refl s, fun h => by cases h⟩
  · split
    · exact ⟨tame_refl s, fun h => by cases h⟩
    · split
      · exact ⟨tame_refl s, fun h => by cases h⟩
      · rename_i h1 h2 h3
        simp only [Bool.not_eq_true', Bool.not_eq_false] at h1 h2 h3
        refine ⟨hvsb_tame w s id, fun _ => ⟨h1, h2, ?_⟩⟩
        have hu := ((hvsb_tame w s id).2.2.2.2.2.2 id).2.1
        rw [hu]
        exact List.isEmpty_iff.mp h3

theorem run_filters_discovery_spec (w : World) (lim : PathLimits)
    (s : SearchState) (id : Nat) :
    (run_filters_discovery w lim s id).1.queue = s.queue ∧
    (run_filters_discovery w lim s id).1.hib = s.hib ∧
    (run_filters_discovery w lim s id).1.validPaths = s.validPaths ∧
    (run_filters_discovery w lim s id).1.nextId = s.nextId ∧
    (run_filters_discovery w lim s id).1.dsts = s.dsts ∧
    (∀ j, ((run_filters_discovery w lim s id).1.store j).path =
      (s.store j).path) ∧
    (∀ j, j ≠ id →
      ((run_filters_discovery w lim s id).1.store j).data.unresolvedStack =
        (s.store j).data.unresolvedStack) ∧
    ((run_filters_discovery w lim s id).2 = true →
      filter_path_by_end_in_self_gif w (s.store id).path = true ∧
      filter_path_same_end_type w (s.store id).path = true ∧
      filter_conditional_link w (s.store id).path = true ∧
      ((run_filters_discovery w lim s id).1.store id).data.unresolvedStack =
        []) ∧
    (((run_filters_discovery w lim s id).1.store id).filtered = false →
      filter_conditional_link w (s.store id).path = true) := by
  unfold run_filters_discovery
  split
  · obtain ⟨hq, hh, hv, hn, hd, _, hst⟩ := markFiltered_tame s id
    refine ⟨hq, hh, hv, hn, hd, fun j => (hst j).1, fun j _ => (hst j).2.1,
      ?_, ?_⟩
    · intro h; cases h
    · intro h
      rw [markFiltered_filtered s id] at h
      cases h
  · split
    · obtain ⟨hq, hh, hv, hn, hd, _, hst⟩ := markFiltered_tame s id
      refine ⟨hq, hh, hv, hn, hd, fun j => (hst j).1, fun j _ => (hst j).2.1,
        ?_, ?_⟩
      · intro h; cases h
      · intro h
        rw [markFiltered_filtered s id] at h
        cases h
    · split
      · obtain ⟨hq, hh, hv, hn, hd, _, hst⟩ := markFiltered_tame s id
        refine ⟨hq, hh, hv, hn, hd, fun j => (hst j).1, fun j _ => (hst j).2.1,
          ?_, ?_⟩
        · intro h; cases h
        · intro h
          rw [markFiltered_filtered s id] at h
          cases h
      · split
        · obtain ⟨hq, hh, hv, hn, hd, _, hst⟩ := markFiltered_tame s id
          refine ⟨hq, hh, hv, hn, hd, fun j => (hst j).1, fun j _ => (hst j).2.1,
            ?_, ?_⟩
          · intro h; cases h
          · intro h
            rw [markFiltered_filtered s id] at h
            cases h
        · rename_i hcond
          simp only [Bool.not_eq_true', Bool.not_eq_false] at hcond
          dsimp only
          obtain ⟨bq, bh, bv, bn, bd, bp⟩ := bps_frame w lim s id
          split
          · obtain ⟨hq, hh, hv, hn, hd, _, hst⟩ :=
              markFiltered_tame (build_path_stack_and_handle_splits w lim s id).1 id
            refine ⟨hq.trans bq, hh.trans bh, hv.trans bv, hn.trans bn,
              hd.trans bd, fun j => ((hst j).1).trans (bp j),
              fun j hj => ((hst j).2.1).trans
                (congrArg (fun q => q.data.unresolvedStack)
                  (bps_store_ne w lim s id j hj)),
              ?_, ?_⟩
            · intro h; cases h
            · intro h
              rw [markFiltered_filtered _ id] at h
              cases h
          · obtain ⟨vt, himp⟩ :=
              run_filters_validity_spec w
                (build_path_stack_and_handle_splits w lim s id).1 id
            obtain ⟨hq, hh, hv, hn, hd, _, hst⟩ := vt
            refine ⟨hq.trans bq, hh.trans bh, hv.trans bv, hn.trans bn,
              hd.trans bd, fun j => ((hst j).1).trans (bp j),
              fun j hj => ((hst j).2.1).trans
                (congrArg (fun q => q.data.unresolvedStack)
                  (bps_store_ne w lim s id j hj)),
              ?_, ?_⟩
            · intro h
              obtain ⟨e1, e2, e3⟩ := himp h
              rw [bp id] at e1
              have hsame : ((build_path_stack_and_handle_splits w lim
                  s id).1.store id).path = (s.store id).path := bp id
              rw [hsame] at e2
              exact ⟨e1, e2, hcond, e3⟩
            · intro h
              exact hcond

theorem run_filters_spec (w : World) (lim : PathLimits) (s : SearchState)
    (id : Nat) :
    (run_filters w lim s id).1.queue = s.queue ∧
    (run_filters w lim s id).1.hib = s.hib ∧
    (run_filters w lim s id).1.validPaths = s.validPaths ∧
    (run_filters w lim s id).1.nextId = s.nextId ∧
    (run_filters w lim s id).1.dsts = s.dsts ∧
    (∀ j, ((run_filters w lim s id).1.store j).path = (s.store j).path) ∧
    (∀ j, j ≠ id →
      ((run_filters w lim s id).1.store j).data.unresolvedStack =
        (s.store j).data.unresolvedStack) ∧
    ((run_filters w lim s id).2 = true →
      filter_path_by_end_in_self_gif w (s.store id).path = true ∧
      filter_path_same_end_type w (s.store id).path = true ∧
      filter_conditional_link w (s.store id).path = true ∧
      ((run_filters w lim s id).1.store id).data.unresolvedStack = []) ∧
    (((run_filters w lim s id).1.store id).filtered = false →
      filter_conditional_link w (s.store id).path = true) := by
  have hc : Tame { s with pathCnt := s.pathCnt + 1 } (count_filter lim s id) :=
    count_filter_tame lim s id
  obtain ⟨cq, ch, cv, cn, cd, _, cst⟩ := hc
  obtain ⟨dq, dh, dv, dn, dd, dp, du, dok, dfl⟩ :=
    run_filters_discovery_spec w lim (count_filter lim s id) id
  have hpathc : ∀ j, ((count_filter lim s id).store j).path = (s.store j).path :=
    fun j => (cst j).1
  have hunresc : ∀ j, ((count_filter lim s id).store j).data.unresolvedStack =
      (s.store j).data.unresolvedStack := fun j => (cst j).2.1
  unfold run_filters
  refine ⟨dq.trans cq, dh.trans ch, dv.trans cv, dn.trans cn, dd.trans cd,
    fun j => (dp j).trans (hpathc j),
    fun j hj => (du j hj).trans (hunresc j), fun h => ?_, fun h => ?_⟩
  · obtain ⟨e1, e2, e3, e4⟩ := dok h
    rw [hpathc id] at e1 e2 e3
    exact ⟨e1, e2, e3, e4⟩
  · have := dfl h
    rw [hpathc id] at this
    exact this

theorem count_filter_conf (lim : PathLimits) (s : SearchState) (id j : Nat) :
    ((count_filter lim s id).store j).confidence = (s.store j).confidence := by
  unfold count_filter
  dsimp only
  split
  · by_cases hj : j = id
    · subst hj; simp [updStore, upd]
    · rw [updStore_store_ne _ id _ j hj]
  · rfl

theorem run_filters_discovery_conf (w : World) (lim : PathLimits)
    (s : SearchState) (id : Nat) (h : 0 ≤ (s.store id).confidence) (j : Nat) :
    ((run_filters_discovery w lim s id).1.store j).confidence ≤
      (s.store j).confidence ∨
    ((run_filters_discovery w lim s id).1.store j).confidence = 1 := by
  have hmark : ∀ (t : SearchState),
      ((markFiltered t id).store j).confidence = (t.store j).confidence := by
    intro t
    rcases ((markFiltered_tame t id).2.2.2.2.2.2 j).2.2 with hc | hc
    · exact hc
    · rcases ((markFiltered_tame t id).2.2.2.2.2.2 j).2.2 with hc2 | hc2
      · exact hc2
      · by_cases hj : j = id
        · subst hj; simp [markFiltered, updStore, upd]
        · simp [markFiltered, updStore, upd_ne _ _ _ _ hj]
  unfold run_filters_discovery
  split
  · exact Or.inl (le_of_eq (hmark s))
  · split
    · exact Or.inl (le_of_eq (hmark s))
    · split
      · exact Or.inl (le_of_eq (hmark s))
      · split
        · exact Or.inl (le_of_eq (hmark s))
        · dsimp only
          have hbps := bps_conf w lim s id h j
          split
          · exact Or.inl (le_trans (le_of_eq (hmark _)) hbps)
          · rcases ((run_filters_validity_spec w
                (build_path_stack_and_handle_splits w lim s id).1
                id).1.2.2.2.2.2.2 j).2.2 with hc | hc
            · exact Or.inl (le_trans (le_of_eq hc) hbps)
            · exact Or.inr hc

theorem run_filters_conf (w : World) (lim : PathLimits) (s : SearchState)
    (id : Nat) (h : 0 ≤ (s.store id).confidence) (j : Nat) :
    ((run_filters w lim s id).1.store j).confidence ≤
      (s.store j).confidence ∨
    ((run_filters w lim s id).1.store j).confidence = 1 := by
  unfold run_filters
  have h' : 0 ≤ ((count_filter lim s id).store id).confidence := by
    rw [count_filter_conf]
    exact h
  rcases run_filters_discovery_conf w lim (count_filter lim s id) id h' j with
    hc | hc
  · rw [count_filter_conf] at hc
    exact Or.inl hc
  · exact Or.inr hc

/-! ### The visitor and handle_path lemmas -/

theorem pf_visitor_push_frame (w : World) (s : SearchState) (id : Nat) :
    (pf_visitor_push w s id).queue = s.queue ∧
    (pf_visitor_push w s id).hib = s.hib ∧
    (pf_visitor_push w s id).nextId = s.nextId ∧
    (pf_visitor_push w s id).validPaths = s.validPaths ∧
    (∀ j, ((pf_visitor_push w s id).store j).path = (s.store j).path) ∧
    (∀ j, ((pf_visitor_push w s id).store j).data.unresolvedStack =
      (s.store j).data.unresolvedStack) ∧
    (∀ j, ((pf_visitor_push w s id).store j).confidence =
      (s.store j).confidence) ∧
    (∀ j, ((pf_visitor_push w s id).store j).filtered =
      (s.store j).filtered) := by
  unfold pf_visitor_push
  dsimp only
  split
  · exact ⟨rfl, rfl, rfl, rfl, fun _ => rfl, fun _ => rfl, fun _ => rfl,
      fun _ => rfl⟩
  · split
    · split
      · refine ⟨rfl, rfl, rfl, rfl, ?_, ?_, ?_, ?_⟩ <;>
          intro j <;> by_cases hj : j = id
        · subst hj; simp [updStore, upd]
        · rw [updStore_store_ne _ id _ j hj]
        · subst hj; simp [updStore, upd]
        · rw [updStore_store_ne _ id _ j hj]
        · subst hj; simp [updStore, upd]
        · rw [updStore_store_ne _ id _ j hj]
        · subst hj; simp [updStore, upd]
        · rw [updStore_store_ne _ id _ j hj]
      · exact ⟨rfl, rfl, rfl, rfl, fun _ => rfl, fun _ => rfl, fun _ => rfl,
          fun _ => rfl⟩
    · exact ⟨rfl, rfl, rfl, rfl, fun _ => rfl, fun _ => rfl, fun _ => rfl,
        fun _ => rfl⟩

theorem pf_visitor_spec (w : World) (lim : PathLimits) (s : SearchState)
    (id : Nat) :
    (pf_visitor w lim s id).queue = s.queue ∧
    (pf_visitor w lim s id).hib = s.hib ∧
    (pf_visitor w lim s id).nextId = s.nextId ∧
    (∀ j, ((pf_visitor w lim s id).store j).path = (s.store j).path) ∧
    (∀ j, j ≠ id → ((pf_visitor w lim s id).store j).data.unresolvedStack =
      (s.store j).data.unresolvedStack) ∧
    ((pf_visitor w lim s id).validPaths = s.validPaths ∨
      ((pf_visitor w lim s id).validPaths = s.validPaths ++ [id] ∧
       filter_path_by_end_in_self_gif w (s.store id).path = true ∧
       filter_path_same_end_type w (s.store id).path = true ∧
       filter_conditional_link w (s.store id).path = true ∧
       ((pf_visitor w lim s id).store id).data.unresolvedStack = [])) ∧
    (((pf_visitor w lim s id).store id).filtered = false →
      filter_conditional_link w (s.store id).path = true) := by
  obtain ⟨rq, rh, rv, rn, rd, rp, ru, rok, rfl'⟩ := run_filters_spec w lim s id
  unfold pf_visitor
  cases hres : (run_filters w lim s id).2 with
  | false =>
    simp only [hres, Bool.not_false, if_pos]
    exact ⟨rq, rh, rn, rp, ru, Or.inl rv, rfl'⟩
  | true =>
    simp only [hres, Bool.not_true, Bool.false_eq_true, if_false]
    obtain ⟨pq, ph, pn, pv, pp, pu, _, pfl⟩ :=
      pf_visitor_push_frame w
        { (run_filters w lim s id).1 with
          validPaths := (run_filters w lim s id).1.validPaths ++ [id] } id
    obtain ⟨e1, e2, e3, e4⟩ := rok hres
    refine ⟨pq.trans rq, ph.trans rh, pn.trans rn,
      fun j => (pp j).trans (rp j),
      fun j hj => (pu j).trans (ru j hj),
      Or.inr ⟨pv.trans (by rw [rv]), e1, e2, e3, (pu id).trans e4⟩,
      fun hfl => ?_⟩
    rw [pfl id] at hfl
    exact rfl' hfl

theorem pf_visitor_conf (w : World) (lim : PathLimits) (s : SearchState)
    (id : Nat) (h : 0 ≤ (s.store id).confidence) (j : Nat) :
    ((pf_visitor w lim s id).store j).confidence ≤ (s.store j).confidence ∨
    ((pf_visitor w lim s id).store j).confidence = 1 := by
  unfold pf_visitor
  cases hres : (run_filters w lim s id).2 with
  | false =>
    simp only [hres, Bool.not_false, if_pos]
    exact run_filters_conf w lim s id h j
  | true =>
    simp only [hres, Bool.not_true, Bool.false_eq_true, if_false]
    obtain ⟨_, _, _, _, _, _, pc, _⟩ :=
      pf_visitor_push_frame w
        { (run_filters w lim s id).1 with
          validPaths := (run_filters w lim s id).1.validPaths ++ [id] } id
    rw [pc j]
    exact run_filters_conf w lim s id h j

theorem process_wake_spec (s : SearchState) :
    (process_wake s).store = s.store ∧
    (process_wake s).validPaths = s.validPaths ∧
    (process_wake s).nextId = s.nextId ∧
    (∀ i ∈ (process_wake s).queue, i ∈ s.queue ∨ i ∈ s.hib) ∧
    (∀ i ∈ (process_wake s).hib, i ∈ s.hib) := by
  unfold process_wake
  refine ⟨rfl, rfl, rfl, fun i hi => ?_, fun i hi => ?_⟩
  · rcases List.mem_append.mp hi with hh | hh
    · exact Or.inl hh
    · exact Or.inr (List.mem_filter.mp hh).1
  · exact (List.mem_filter.mp hi).1

theorem mark_visited_fold_eq (w : World) (l : List Nat) :
    ∀ (s : SearchState),
      l.foldl (fun t g =>
        { t with visited := upd t.visited (w.vIndex g) true }) s =
      { s with visited :=
          l.foldl (fun v g => upd v (w.vIndex g) true) s.visited } := by
  induction l with
  | nil => intro s; rfl
  | cons a t ih =>
    intro s
    rw [List.foldl_cons, List.foldl_cons,
      ih { s with visited := upd s.visited (w.vIndex a) true }]

theorem handle_path_mark2_frame (w : World) (s : SearchState) (id : Nat) :
    (handle_path_mark2 w s id).store = s.store ∧
    (handle_path_mark2 w s id).queue = s.queue ∧
    (handle_path_mark2 w s id).hib = s.hib ∧
    (handle_path_mark2 w s id).validPaths = s.validPaths ∧
    (handle_path_mark2 w s id).nextId = s.nextId := by
  unfold handle_path_mark2
  split
  · rw [mark_visited_fold_eq]
    exact ⟨rfl, rfl, rfl, rfl, rfl⟩
  · split
    · exact ⟨rfl, rfl, rfl, rfl, rfl⟩
    · exact ⟨rfl, rfl, rfl, rfl, rfl⟩

theorem handle_path_enqueue_spec (w : World) (s : SearchState) (id : Nat) :
    (handle_path_enqueue w s id).store = s.store ∧
    (handle_path_enqueue w s id).validPaths = s.validPaths ∧
    (handle_path_enqueue w s id).nextId = s.nextId ∧
    (((handle_path_enqueue w s id).queue = s.queue ∧
      (handle_path_enqueue w s id).hib = s.hib ++ [id]) ∨
     ((handle_path_enqueue w s id).queue = s.queue ++ [id] ∧
      (handle_path_enqueue w s id).hib = s.hib)) := by
  obtain ⟨m1, m2, m3, m4, m5⟩ :=
    handle_path_mark2_frame w (handle_path_markweak w s id) id
  unfold handle_path_enqueue handle_path_insert
  split
  · exact ⟨m1, m4, m5, Or.inl ⟨m2, congrArg (fun l => l ++ [id]) m3⟩⟩
  · exact ⟨m1, m4, m5, Or.inr ⟨congrArg (fun l => l ++ [id]) m2, m3⟩⟩

theorem handle_path_post_spec (w : World) (s : SearchState) (id : Nat) :
    (handle_path_post w s id).store = s.store ∧
    (handle_path_post w s id).validPaths = s.validPaths ∧
    (handle_path_post w s id).nextId = s.nextId ∧
    (∀ i ∈ (handle_path_post w s id).queue,
      (i = id ∧ (s.store id).filtered = false) ∨ i ∈ s.queue ∨ i ∈ s.hib) ∧
    (∀ i ∈ (handle_path_post w s id).hib,
      (i = id ∧ (s.store id).filtered = false) ∨ i ∈ s.hib) := by
  have hwake : ∀ (t : SearchState),
      t = (if (s.store id).wakeSignal = true then process_wake s else s) →
      t.store = s.store ∧ t.validPaths = s.validPaths ∧
      t.nextId = s.nextId ∧
      (∀ i ∈ t.queue, i ∈ s.queue ∨ i ∈ s.hib) ∧
      (∀ i ∈ t.hib, i ∈ s.hib) := by
    intro t ht
    split at ht
    · subst ht
      exact process_wake_spec s
    · subst ht
      exact ⟨rfl, rfl, rfl, fun i hi => Or.inl hi, fun i hi => hi⟩
  unfold handle_path_post
  split
  · refine ⟨rfl, rfl, rfl, ?_, ?_⟩
    · intro i hi
      exact absurd hi (List.not_mem_nil i)
    · intro i hi
      exact Or.inr hi
  · generalize hT :
      (if (s.store id).wakeSignal = true then process_wake s else s) = t
    obtain ⟨w1, w2, w3, w4, w5⟩ := hwake t hT.symm
    unfold handle_path_post2
    split
    · exact ⟨w1, w2, w3, fun i hi => Or.inr (w4 i hi),
        fun i hi => Or.inr (w5 i hi)⟩
    · next hf =>
      have hfil : (s.store id).filtered = false := by
        rw [w1] at hf
        exact Bool.not_eq_true _ ▸ hf
      obtain ⟨e1, e2, e3, e4⟩ := handle_path_enqueue_spec w t id
      rcases e4 with ⟨eq1, eq2⟩ | ⟨eq1, eq2⟩
      · refine ⟨e1.trans w1, e2.trans w2, e3.trans w3, fun i hi => ?_,
          fun i hi => ?_⟩
        · rw [eq1] at hi
          exact Or.inr (w4 i hi)
        · rw [eq2] at hi
          rcases List.mem_append.mp hi with hh | hh
          · exact Or.inr (w5 i hh)
          · exact Or.inl ⟨List.mem_singleton.mp hh, hfil⟩
      · refine ⟨e1.trans w1, e2.trans w2, e3.trans w3, fun i hi => ?_,
          fun i hi => ?_⟩
        · rw [eq1] at hi
          rcases List.mem_append.mp hi with hh | hh
          · exact Or.inr (w4 i hh)
          · exact Or.inl ⟨List.mem_singleton.mp hh, hfil⟩
        · rw [eq2] at hi
          exact Or.inr (w5 i hi)

theorem handle_path_spec (w : World) (lim : PathLimits) (s : SearchState)
    (id : Nat) :
    (handle_path w lim s id).nextId = s.nextId ∧
    (∀ j, ((handle_path w lim s id).store j).path = (s.store j).path) := by
  unfold handle_path
  obtain ⟨p1, p2, p3, _, _⟩ := handle_path_post_spec w
    (pf_visitor w lim s id) id
  obtain ⟨_, _, vn, vp, _, _, _⟩ := pf_visitor_spec w lim s id
  refine ⟨p3.trans vn, fun j => ?_⟩
  rw [p1]
  exact vp j

theorem handle_path_conf (w : World) (lim : PathLimits) (s : SearchState)
    (id : Nat) (h : 0 ≤ (s.store id).confidence) (j : Nat) :
    ((handle_path w lim s id).store j).confidence ≤
      (s.store j).confidence ∨
    ((handle_path w lim s id).store j).confidence = 1 := by
  unfold handle_path
  obtain ⟨p1, _, _, _, _⟩ := handle_path_post_spec w
    (pf_visitor w lim s id) id
  rw [p1]
  exact pf_visitor_conf w lim s id h j

/-! ### Invariant preservation through the BFS driver -/

theorem condall_extend (w : World) (p : List Nat)
    (hpre : ∀ k, k < p.length → filter_conditional_link w (p.take k) = true)
    (hfull : filter_conditional_link w p = true) : CondAll w p := by
  intro k hk
  rcases Nat.lt_or_eq_of_le hk with h | h
  · exact hpre k h
  · subst h
    rw [List.take_length]
    exact hfull

theorem validGood_of_eqs (w : World) (root : Nat) (s s' : SearchState)
    (i : Nat) (hp : (s'.store i).path = (s.store i).path)
    (hu : (s'.store i).data.unresolvedStack = (s.store i).data.unresolvedStack)
    (hv : ValidGood w root s i) : ValidGood w root s' i := by
  unfold ValidGood at hv ⊢
  rw [hp, hu]
  exact hv

theorem handle_path_inv (w : World) (root : Nat) (lim : PathLimits)
    (s : SearchState) (id : Nat)
    (hinv : Inv w root s) (hid : id < s.nextId) (hnv : id ∉ s.validPaths)
    (hne : (s.store id).path ≠ [])
    (hhead : (s.store id).path.headD 0 = root)
    (hpre : ∀ k, k < (s.store id).path.length →
      filter_conditional_link w ((s.store id).path.take k) = true) :
    Inv w root (handle_path w lim s id) := by
  obtain ⟨hq, hh, hv⟩ := hinv
  obtain ⟨vq, vh, vn, vp, vu, vval, vfl⟩ := pf_visitor_spec w lim s id
  obtain ⟨p1, p2, p3, p4, p5⟩ :=
    handle_path_post_spec w (pf_visitor w lim s id) id
  have hps : ∀ j, (handle_path_post w (pf_visitor w lim s id) id).store j =
      (pf_visitor w lim s id).store j := fun j => congrFun p1 j
  have hnx : (handle_path_post w (pf_visitor w lim s id) id).nextId =
      s.nextId := p3.trans vn
  have hgood_id : ((pf_visitor w lim s id).store id).filtered = false →
      GoodPath w root ((pf_visitor w lim s id).store id).path := by
    intro hf
    rw [vp id]
    exact ⟨hne, hhead, condall_extend w _ hpre (vfl hf)⟩
  unfold handle_path
  refine ⟨fun i hi => ?_, fun i hi => ?_, fun i hi => ?_⟩
  · rcases p4 i hi with ⟨rfl, hf⟩ | hmem | hmem
    · refine ⟨by rw [hnx]; exact hid, ?_⟩
      rw [hps i]
      exact hgood_id hf
    · rw [vq] at hmem
      obtain ⟨hlt, hg⟩ := hq i hmem
      refine ⟨by rw [hnx]; exact hlt, ?_⟩
      rw [hps i, vp i]
      exact hg
    · rw [vh] at hmem
      obtain ⟨hlt, hg⟩ := hh i hmem
      refine ⟨by rw [hnx]; exact hlt, ?_⟩
      rw [hps i, vp i]
      exact hg
  · rcases p5 i hi with ⟨rfl, hf⟩ | hmem
    · refine ⟨by rw [hnx]; exact hid, ?_⟩
      rw [hps i]
      exact hgood_id hf
    · rw [vh] at hmem
      obtain ⟨hlt, hg⟩ := hh i hmem
      refine ⟨by rw [hnx]; exact hlt, ?_⟩
      rw [hps i, vp i]
      exact hg
  · rw [p2] at hi
    rcases vval with hveq | ⟨hveq, e1, e2, e3, e4⟩
    · rw [hveq] at hi
      have hne_i : i ≠ id := fun hcon => hnv (hcon ▸ hi)
      obtain ⟨hlt, hvg⟩ := hv i hi
      refine ⟨by rw [hnx]; exact hlt, ?_⟩
      refine validGood_of_eqs w root s _ i ?_ ?_ hvg
      · rw [hps i]
        exact vp i
      · rw [hps i]
        exact vu i hne_i
    · rw [hveq] at hi
      rcases List.mem_append.mp hi with hold | hidm
      · have hne_i : i ≠ id := fun hcon => hnv (hcon ▸ hold)
        obtain ⟨hlt, hvg⟩ := hv i hold
        refine ⟨by rw [hnx]; exact hlt, ?_⟩
        refine validGood_of_eqs w root s _ i ?_ ?_ hvg
        · rw [hps i]
          exact vp i
        · rw [hps i]
          exact vu i hne_i
      · have hie : i = id := List.mem_singleton.mp hidm
        subst hie
        refine ⟨by rw [hnx]; exact hid, ?_, ?_, ?_, ?_⟩
        · rw [hps i, vp i]
          exact ⟨hne, hhead, condall_extend w _ hpre e3⟩
        · rw [hps i, vp i]
          exact e1
        · rw [hps i, vp i]
          exact e2
        · rw [hps i]
          exact e4

theorem extendState_store_lt (pid : Nat) (s : SearchState) (n : Nat) (j : Nat)
    (hj : j < s.nextId) : (extendState pid s n).store j = s.store j := by
  unfold extendState
  exact upd_ne _ _ _ _ (Nat.ne_of_lt hj)

theorem extendState_store_new (pid : Nat) (s : SearchState) (n : Nat) :
    (extendState pid s n).store s.nextId = (s.store pid).extend n := by
  unfold extendState
  simp

theorem visit_extend_inv (w : World) (root : Nat) (lim : PathLimits)
    (pid : Nat) (s : SearchState) (n : Nat)
    (hinv : Inv w root s) (_hpid : pid < s.nextId)
    (hpg : GoodPath w root (s.store pid).path) :
    Inv w root (visit_extend w lim pid s n) ∧
    (visit_extend w lim pid s n).nextId = s.nextId + 1 ∧
    (∀ j, j < s.nextId →
      ((visit_extend w lim pid s n).store j).path = (s.store j).path) := by
  obtain ⟨hq, hh, hv⟩ := hinv
  obtain ⟨hne, hhead, hca⟩ := hpg
  have hS1inv : Inv w root (extendState pid s n) := by
    refine ⟨fun i hi => ?_, fun i hi => ?_, fun i hi => ?_⟩
    · obtain ⟨hlt, hg⟩ := hq i hi
      refine ⟨Nat.lt_succ_of_lt hlt, ?_⟩
      rw [extendState_store_lt pid s n i hlt]
      exact hg
    · obtain ⟨hlt, hg⟩ := hh i hi
      refine ⟨Nat.lt_succ_of_lt hlt, ?_⟩
      rw [extendState_store_lt pid s n i hlt]
      exact hg
    · obtain ⟨hlt, hg⟩ := hv i hi
      refine ⟨Nat.lt_succ_of_lt hlt, ?_⟩
      refine validGood_of_eqs w root s _ i ?_ ?_ hg
      · rw [extendState_store_lt pid s n i hlt]
      · rw [extendState_store_lt pid s n i hlt]
  have hS1path : ((extendState pid s n).store s.nextId).path =
      (s.store pid).path ++ [n] := by
    rw [extendState_store_new]
    rfl
  have hS1nv : s.nextId ∉ (extendState pid s n).validPaths :=
    fun hmem => absurd (hv _ hmem).1 (Nat.lt_irrefl _)
  have hS1ne : ((extendState pid s n).store s.nextId).path ≠ [] := by
    rw [hS1path]
    exact List.append_ne_nil_of_right_ne_nil _ (by simp)
  have hS1head : ((extendState pid s n).store s.nextId).path.headD 0 = root := by
    rw [hS1path, headD_append _ _ hne]
    exact hhead
  have hS1pre : ∀ k, k < ((extendState pid s n).store s.nextId).path.length →
      filter_conditional_link w
        (((extendState pid s n).store s.nextId).path.take k) = true := by
    intro k hk
    rw [hS1path] at hk ⊢
    have hk' : k ≤ (s.store pid).path.length := by
      rw [List.length_append, List.length_singleton] at hk
      omega
    rw [List.take_append_of_le_length hk']
    exact hca k hk'
  obtain ⟨hn, hp⟩ := handle_path_spec w lim (extendState pid s n) s.nextId
  refine ⟨?_, ?_, ?_⟩
  · exact handle_path_inv w root lim (extendState pid s n) s.nextId hS1inv
      (Nat.lt_succ_self _) hS1nv hS1ne hS1head hS1pre
  · exact hn
  · intro j hj
    have := hp j
    rw [extendState_store_lt pid s n j hj] at this
    exact this

theorem visit_neighbor_inv (w : World) (root : Nat) (lim : PathLimits)
    (pid : Nat) (s : SearchState) (n : Nat)
    (hinv : Inv w root s) (hpid : pid < s.nextId)
    (hpg : GoodPath w root (s.store pid).path) :
    Inv w root (visit_neighbor w lim pid s n) ∧
    s.nextId ≤ (visit_neighbor w lim pid s n).nextId ∧
    (∀ j, j < s.nextId →
      ((visit_neighbor w lim pid s n).store j).path = (s.store j).path) := by
  unfold visit_neighbor
  split
  · exact ⟨hinv, Nat.le_refl _, fun j _ => rfl⟩
  · split
    · exact ⟨hinv, Nat.le_refl _, fun j _ => rfl⟩
    · obtain ⟨h1, h2, h3⟩ := visit_extend_inv w root lim pid s n hinv hpid hpg
      exact ⟨h1, by rw [h2]; exact Nat.le_succ _, h3⟩

theorem visit_fold_inv (w : World) (root : Nat) (lim : PathLimits) (pid : Nat)
    (l : List Nat) :
    ∀ s, Inv w root s → pid < s.nextId → GoodPath w root (s.store pid).path →
      Inv w root (l.foldl (visit_neighbor w lim pid) s) := by
  induction l with
  | nil =>
    intro s h _ _
    exact h
  | cons a tl ih =>
    intro s hinv hpid hpg
    rw [List.foldl_cons]
    obtain ⟨h1, h2, h3⟩ := visit_neighbor_inv w root lim pid s a hinv hpid hpg
    refine ih _ h1 (Nat.lt_of_lt_of_le hpid h2) ?_
    rw [h3 pid hpid]
    exact hpg

theorem bfs_loop_inv (w : World) (root : Nat) (lim : PathLimits) :
    ∀ fuel s, Inv w root s → Inv w root (bfs_loop w lim fuel s) := by
  intro fuel
  induction fuel with
  | zero =>
    intro s h
    exact h
  | succ f ih =>
    intro s hinv
    cases hqq : s.queue with
    | nil =>
      have heq : bfs_loop w lim (f + 1) s = s := by
        unfold bfs_loop
        rw [hqq]
      rw [heq]
      exact hinv
    | cons pid rest =>
      have hstep : bfs_loop w lim (f + 1) s =
          bfs_loop w lim f (bfs_step w lim pid { s with queue := rest }) := by
        conv_lhs => unfold bfs_loop
        rw [hqq]
      rw [hstep]
      apply ih
      obtain ⟨hlt, hg⟩ :=
        hinv.1 pid (by rw [hqq]; exact List.mem_cons_self pid rest)
      have hinv1 : Inv w root { s with queue := rest } := by
        obtain ⟨hq', hh', hv'⟩ := hinv
        exact ⟨fun i hi => hq' i (by rw [hqq]; exact List.mem_cons_of_mem _ hi),
               hh', hv'⟩
      unfold bfs_step
      exact visit_fold_inv w root lim pid _ _ hinv1 hlt hg

theorem find_paths_state_inv (w : World) (lim : PathLimits) (fuel src : Nat)
    (dsts : List Nat) (s : SearchState)
    (h : find_paths_state w lim fuel src dsts = .ok s) :
    Inv w (w.selfGifOf src) s := by
  unfold find_paths_state at h
  split at h
  · cases h
  · split at h
    · cases h
    · have h' : (Except.ok (bfs_loop w lim fuel
          (handle_path w lim (SearchState.init (w.selfGifOf src) dsts) 0)) :
            Except String SearchState) = Except.ok s := h
      injection h' with h'
      subst h'
      have hpath0 : ((SearchState.init (w.selfGifOf src) dsts).store 0).path =
          [w.selfGifOf src] := rfl
      have hinv0 : Inv w (w.selfGifOf src)
          (SearchState.init (w.selfGifOf src) dsts) := by
        refine ⟨fun i hi => ?_, fun i hi => ?_, fun i hi => ?_⟩ <;>
          exact absurd hi (List.not_mem_nil i)
      apply bfs_loop_inv
      refine handle_path_inv w (w.selfGifOf src) lim _ 0 hinv0
        Nat.zero_lt_one (List.not_mem_nil 0) ?_ ?_ ?_
      · rw [hpath0]
        simp
      · rw [hpath0]
        rfl
      · intro k hk
        rw [hpath0] at hk
        have hk0 : k = 0 := Nat.lt_one_iff.mp hk
        subst hk0
        rw [hpath0]
        exact filter_conditional_link_nil w

/-! ### Claims C1, C2, C6, C7 -/

def bigLimits : PathLimits := ⟨100, 100, 100⟩

/-- Claim C1, counterexample to the destination clause: in a world of two
disconnected module interfaces, `find_paths` from node 0 to destination
list `[1]` succeeds and returns the seed path `[0]`, whose end node 0 is
not a destination.  The code has no filter comparing the end of a path
against `dsts`; reaching a destination only erases it from the pending
set. -/
theorem find_paths_endpoint_counterexample :
    find_paths Wempty bigLimits 3 0 [1] = .ok [[0]] ∧
    Wempty.nodeOf (lastGif [0]) ∉ [1] := by
  exact ⟨by rfl, by decide⟩

/-- Claim C1 (amended): every path returned by a successful `find_paths`
is nonempty, starts at the self gif of the source, ends in a self gif,
ends at a node whose type equals the type of the start node, and every
conditional link on it has its filter return PASS evaluated per its
only-first-in-path mode; the end node need not belong to `dsts`. -/
theorem find_paths_returned_spec (w : World) (lim : PathLimits)
    (fuel src : Nat) (dsts : List Nat) (ps : List (List Nat)) (p : List Nat)
    (hok : find_paths w lim fuel src dsts = .ok ps) (hp : p ∈ ps) :
    p ≠ [] ∧ p.headD 0 = w.selfGifOf src ∧
    filter_path_by_end_in_self_gif w p = true ∧
    filter_path_same_end_type w p = true ∧
    CondLinkSpec w p := by
  unfold find_paths at hok
  cases hst : find_paths_state w lim fuel src dsts with
  | error e =>
    rw [hst] at hok
    cases hok
  | ok s =>
    rw [hst] at hok
    have hok' : (kept_ids s).map (fun id => (s.store id).path) = ps := by
      have hh : (Except.ok ((kept_ids s).map (fun id => (s.store id).path)) :
          Except String (List (List Nat))) = Except.ok ps := hok
      injection hh
    rw [← hok'] at hp
    obtain ⟨id, hid_mem, hpe⟩ := List.mem_map.mp hp
    have hval : id ∈ s.validPaths := (List.mem_filter.mp hid_mem).1
    obtain ⟨_, _, hv⟩ := find_paths_state_inv w lim fuel src dsts s hst
    obtain ⟨_, hvg⟩ := hv id hval
    obtain ⟨⟨hne, hhead, hca⟩, hf1, hf2, _⟩ := hvg
    subst hpe
    exact ⟨hne, hhead, hf1, hf2, condall_implies_spec w _ hca⟩

/-- Witness for the amended C1 at the concrete counterexample world: the
returned path `[0]` satisfies every clause of the amended claim. -/
theorem find_paths_returned_spec_witness :
    ([0] : List Nat) ≠ [] ∧ ([0] : List Nat).headD 0 = Wempty.selfGifOf 0 ∧
    filter_path_by_end_in_self_gif Wempty [0] = true ∧
    filter_path_same_end_type Wempty [0] = true ∧
    CondLinkSpec Wempty [0] :=
  find_paths_returned_spec Wempty bigLimits 3 0 [1] [[0]] [0] (by rfl)
    (by decide)

/-- Claim C2: every path of the list returned by `find_paths` (the valid
paths kept by the final `_filter_incomplete` pass) has an empty
unresolved stack and `not_complete` false. -/
theorem find_paths_stack_clean (w : World) (lim : PathLimits)
    (fuel src : Nat) (dsts : List Nat) (s : SearchState) (id : Nat)
    (hok : find_paths_state w lim fuel src dsts = .ok s)
    (hid : id ∈ kept_ids s) :
    (s.store id).data.unresolvedStack = [] ∧
    (s.store id).data.notComplete = false := by
  have hmem := List.mem_filter.mp hid
  obtain ⟨_, _, hv⟩ := find_paths_state_inv w lim fuel src dsts s hok
  obtain ⟨_, hvg⟩ := hv id hmem.1
  refine ⟨hvg.2.2.2, ?_⟩
  simpa using hmem.2

/-- Witness for C2 at the concrete search of the counterexample world. -/
theorem find_paths_stack_clean_witness :
    (((find_paths_state Wempty bigLimits 3 0 [1]).toOption.getD
        default).store 0).data.unresolvedStack = [] ∧
    (((find_paths_state Wempty bigLimits 3 0 [1]).toOption.getD
        default).store 0).data.notComplete = false :=
  find_paths_stack_clean Wempty bigLimits 3 0 [1] _ 0 (by rfl) (by decide)

/-- Claim C6: the confidence of a stored path never increases through the
split bookkeeping of `_build_path_stack_and_handle_splits`, the only
other writer `_handle_valid_split_branch` either preserves a confidence
or sets it exactly to one, and through a whole `handle_path` round every
confidence either does not increase or ends up exactly one. -/
theorem confidence_monotone (w : World) (lim : PathLimits) (s : SearchState)
    (id : Nat) (h : 0 ≤ (s.store id).confidence) :
    (∀ j, ((build_path_stack_and_handle_splits w lim s id).1.store
        j).confidence ≤ (s.store j).confidence) ∧
    (∀ j, ((handle_valid_split_branch w s id).1.store j).confidence =
        (s.store j).confidence ∨
      ((handle_valid_split_branch w s id).1.store j).confidence = 1) ∧
    (∀ j, ((handle_path w lim s id).store j).confidence ≤
        (s.store j).confidence ∨
      ((handle_path w lim s id).store j).confidence = 1) :=
  ⟨fun j => bps_conf w lim s id h j,
   fun j => ((hvsb_tame w s id).2.2.2.2.2.2 j).2.2,
   fun j => handle_path_conf w lim s id h j⟩

/-- Witness for C6 at the initial search state of the empty world. -/
theorem confidence_monotone_witness :
    (∀ j, ((build_path_stack_and_handle_splits Wempty bigLimits
        (SearchState.init 0 []) 0).1.store j).confidence ≤
        ((SearchState.init 0 []).store j).confidence) ∧
    (∀ j, ((handle_valid_split_branch Wempty (SearchState.init 0 [])
        0).1.store j).confidence =
        ((SearchState.init 0 []).store j).confidence ∨
      ((handle_valid_split_branch Wempty (SearchState.init 0 [])
        0).1.store j).confidence = 1) ∧
    (∀ j, ((handle_path Wempty bigLimits (SearchState.init 0 [])
        0).store j).confidence ≤ ((SearchState.init 0 []).store j).confidence ∨
      ((handle_path Wempty bigLimits (SearchState.init 0 [])
        0).store j).confidence = 1) :=
  confidence_monotone Wempty bigLimits (SearchState.init 0 []) 0 (by decide)

/-- A search state whose weak bitset is saturated, to exercise the
weak-visited branch of the neighbour loop. -/
def weakState : SearchState :=
  { SearchState.init 0 [] with visitedWeak := fun _ => true }

/-- Claim C7: the neighbour loop of `bfs_visit` never extends to a
neighbour whose index is marked visited (the state is untouched), and for
a neighbour marked only weak-visited it extends exactly when the current
path does not already contain that neighbour; an extension stores the
parent path plus the neighbour under a fresh id. -/
theorem bfs_visit_skip_spec (w : World) (lim : PathLimits) (pid : Nat)
    (s : SearchState) (n : Nat) :
    (s.visited (w.vIndex n) = true → visit_neighbor w lim pid s n = s) ∧
    (s.visited (w.vIndex n) = false → s.visitedWeak (w.vIndex n) = true →
      (((s.store pid).path.contains n = true →
        visit_neighbor w lim pid s n = s) ∧
       ((s.store pid).path.contains n = false →
        (visit_neighbor w lim pid s n).nextId = s.nextId + 1 ∧
        ((visit_neighbor w lim pid s n).store s.nextId).path =
          (s.store pid).path ++ [n]))) := by
  refine ⟨fun h => ?_, fun h1 h2 => ⟨fun hc => ?_, fun hc => ?_⟩⟩
  · unfold visit_neighbor
    rw [if_pos h]
  · unfold visit_neighbor
    rw [if_neg (by simp [h1]), if_pos (by rw [h2, hc]; rfl)]
  · unfold visit_neighbor
    rw [if_neg (by simp [h1]), if_neg (by rw [h2, hc]; decide)]
    unfold visit_extend
    refine ⟨(handle_path_spec w lim (extendState pid s n) s.nextId).1, ?_⟩
    rw [(handle_path_spec w lim (extendState pid s n) s.nextId).2 s.nextId,
      extendState_store_new]
    rfl

/-- Witness for C7: in the saturated-weak state the fresh neighbour 1 is
not on the seed path `[0]`, so the loop extends to it. -/
theorem bfs_visit_skip_spec_witness :
    (visit_neighbor Wempty bigLimits 0 weakState 1).nextId =
      weakState.nextId + 1 ∧
    ((visit_neighbor Wempty bigLimits 0 weakState 1).store
      weakState.nextId).path = (weakState.store 0).path ++ [1] :=
  ((bfs_visit_skip_spec Wempty bigLimits 0 weakState 1).2 (by rfl)
    (by rfl)).2 (by decide)

end Atopile
